import Mathlib

/-!
Verification of the Causal Knowledge Graph (CKG) and Audit Engine of the
chaoschain-sdk-ts repository.

The development shallowly embeds the code of `src/dkg/DKG.ts` (classes `DKG`
and `DKGNode`) and the `auditCausality` method of `src/ChaosChainSDK.ts`:

* JS strings are embedded as `List Char` (`Str`).
* JS `Map` objects are embedded as association lists with JS `Map` semantics:
  `set` overwrites in place (keeping the original insertion position) or
  appends, and iteration follows insertion order.
* JS numbers holding timestamps are embedded as `Int`; the contribution-weight
  arithmetic is embedded over `ℚ` (exact rationals standing for the float
  computations of the source).
* The external `ethers.keccak256` is not part of the repository; every
  definition that hashes is parameterized by the hash functions it uses
  (`hashLeaf` for hashing a UTF-8 string, `hashPair` for hashing the
  concatenation of two 32-byte digests, `dzero` for `ethers.ZeroHash`), so all
  theorems hold for every choice of hash function.
* Methods of the source that throw (`topologicalSort`) are embedded with
  `Except`; the recursive graph traversals of the source are embedded with an
  explicit fuel argument together with a proof that the chosen fuel is always
  sufficient, so the embedded functions agree with the source's unbounded
  recursion on every input.

The file is organized as: all definitions first, then all theorems.
-/

namespace CKG

/-- Strings of the source are embedded as lists of characters. -/
abbrev Str := List Char

/-! ## Definitions: JS `Map` semantics over association lists -/

/-- Lookup in a JS `Map` (`Map.get`). -/
def mapGet {α : Type} (m : List (Str × α)) (k : Str) : Option α :=
  match m with
  | [] => none
  | (k₂, v) :: rest => if k₂ = k then some v else mapGet rest k

/-- Membership in a JS `Map` (`Map.has`). -/
def mapHas {α : Type} (m : List (Str × α)) (k : Str) : Bool :=
  (mapGet m k).isSome

/-- Update of a JS `Map` (`Map.set`): an existing key keeps its insertion
position and gets the new value; a new key is appended at the end. -/
def mapSet {α : Type} (m : List (Str × α)) (k : Str) (v : α) : List (Str × α) :=
  match m with
  | [] => [(k, v)]
  | (k₂, v₂) :: rest => if k₂ = k then (k, v) :: rest else (k₂, v₂) :: mapSet rest k v

/-- Keys of a JS `Map` in insertion order (`Map.keys`). -/
def mapKeys {α : Type} (m : List (Str × α)) : List Str :=
  m.map Prod.fst

/-! ## Definitions: decimal rendering of timestamps (JS `toString`) -/

/-- ASCII character of a decimal digit. -/
def digitChar10 (d : Nat) : Char := Char.ofNat (48 + d)

/-- Decimal digit string of a natural number (most significant digit first);
`0` renders as the single character `0`, matching JS `toString`. -/
def natRepr (n : Nat) : Str :=
  if n = 0 then ['0'] else ((Nat.digits 10 n).map digitChar10).reverse

/-- Decimal rendering of an integer, matching JS `Number.prototype.toString`
on integral values. -/
def intRepr : Int → Str
  | .ofNat n => natRepr n
  | .negSucc n => '-' :: natRepr (n + 1)

/-! ## Definitions: DKG node (`DKGNode.ts`)

Fields `vlc`, `content`, `nodeType` and `metadata` of the source class are
metadata that no embedded operation reads; they are omitted from the record.
-/

/-- Embedding of the `DKGNode` class of `src/dkg/DKGNode.ts`. -/
structure DKGNode where
  author : Str
  sig : Str
  ts : Int
  xmtpMsgId : Str
  artifactIds : List Str
  payloadHash : Str
  parents : List Str
  agentId : Option Nat
deriving DecidableEq

/-- Lexicographic sorting of the parent list, embedding the JS
`[...this.parents].sort()` (default sort compares code units). -/
def sortParents (l : List Str) : List Str :=
  List.insertionSort (fun a b : Str => a ≤ b) l

/-- Join a list of strings with the pipe character, embedding
`Array.prototype.join` with separator `|`. -/
def joinPipe : List Str → Str
  | [] => []
  | [x] => x
  | x :: y :: rest => x ++ '|' :: joinPipe (y :: rest)

/-- Pre-hash canonical serialization of a node: the bracketed array of
`DKGNode.computeCanonicalHash` joined by pipes. -/
def canonicalString (n : DKGNode) : Str :=
  joinPipe [n.author, intRepr n.ts, n.xmtpMsgId, n.payloadHash, joinPipe (sortParents n.parents)]

/-- Embedding of `DKGNode.computeCanonicalHash`, parameterized by the external
`keccak256 ∘ toUtf8Bytes` (any function from strings to digests). -/
def computeCanonicalHash {D : Type} (hashLeaf : Str → D) (n : DKGNode) : D :=
  hashLeaf (canonicalString n)

/-- Hashed field tuple of a node, as named by the specification: author,
timestamp as decimal string, id, payload fingerprint, sorted parent list. -/
def hashedTuple (n : DKGNode) : Str × Str × Str × Str × List Str :=
  (n.author, intRepr n.ts, n.xmtpMsgId, n.payloadHash, sortParents n.parents)

/-- Splitting a string at every pipe character; left inverse of `joinPipe` on
pipe-free nonempty part lists. -/
def splitPipe : Str → List Str
  | [] => [[]]
  | c :: cs =>
    match splitPipe cs with
    | [] => [[]]
    | g :: gs => if c = '|' then [] :: g :: gs else (c :: g) :: gs

/-- Predicate: every hashed string field of the node is free of the pipe
separator, and every parent id is nonempty. -/
def PipeFreeNode (n : DKGNode) : Prop :=
  (∀ c ∈ n.author, c ≠ '|') ∧ (∀ c ∈ n.xmtpMsgId, c ≠ '|') ∧
    (∀ c ∈ n.payloadHash, c ≠ '|') ∧ (∀ p ∈ n.parents, p ≠ [] ∧ ∀ c ∈ p, c ≠ '|')

instance (n : DKGNode) : Decidable (PipeFreeNode n) := by
  unfold PipeFreeNode
  infer_instance

/-! ## Definitions: DKG graph store (`DKG.ts`) -/

/-- Embedding of the `DKG` class state: node map, forward adjacency map and
root id list. -/
structure DKG where
  nodes : List (Str × DKGNode)
  edges : List (Str × List Str)
  rootNodes : List Str
deriving DecidableEq

/-- The freshly constructed empty graph (`new DKG()`). -/
def DKG.empty : DKG := ⟨[], [], []⟩

/-- Edge wiring loop of `DKG.addNode`: for each parent id in order, append the
child id to that parent's child list (creating an empty list first when the
parent has no entry yet). -/
def addEdges (edges : List (Str × List Str)) (id : Str) : List Str → List (Str × List Str)
  | [] => edges
  | parentId :: rest =>
    addEdges (mapSet edges parentId (((mapGet edges parentId).getD []) ++ [id])) id rest

/-- Embedding of `DKG.addNode`: stores the node under `nodeId` (defaulting to
its message id), wires parent→child edges, and registers a parentless node as
a root unless already present. Returns the updated graph and the id used. -/
def DKG.addNode (g : DKG) (node : DKGNode) (nodeId : Option Str) : DKG × Str :=
  let id := nodeId.getD node.xmtpMsgId
  let nodes := mapSet g.nodes id node
  let edges := addEdges g.edges id node.parents
  let roots :=
    if node.parents = [] then
      if id ∈ g.rootNodes then g.rootNodes else g.rootNodes ++ [id]
    else g.rootNodes
  (⟨nodes, edges, roots⟩, id)

/-- Embedding of `DKG.getNode`. -/
def DKG.getNode (g : DKG) (nodeId : Str) : Option DKGNode :=
  mapGet g.nodes nodeId

/-- Embedding of `DKG.getChildren`: the stored child list, or `[]`. -/
def DKG.getChildren (g : DKG) (nodeId : Str) : List Str :=
  (mapGet g.edges nodeId).getD []

/-- Edge count as computed by the audit report: the total length of all child
lists in the adjacency map. -/
def DKG.edgeCount (g : DKG) : Nat :=
  (g.edges.map (fun e => e.2.length)).sum

/-- Graph built by adding a list of nodes in order with `addNode` (the pattern
of `DKG.fromXMTPThread`). -/
def DKG.ofNodes (ns : List DKGNode) : DKG :=
  ns.foldl (fun g n => (g.addNode n none).1) DKG.empty

/-! ## Definitions: topological sort (`DKG.topologicalSort`) -/

deriving instance DecidableEq for Except

/-- Errors thrown by `DKG.topologicalSort`: the two `throw` sites of the
source (`Cycle detected in DKG at node …` and `Node … not found`). -/
inductive SortErr where
  | cycleDetected (id : Str)
  | nodeNotFound (id : Str)
deriving DecidableEq

/-- Mutable state of the sort: the `visited` set and the `result` array. The
result entries are instrumented with the id under which each node was found
(the source pushes only the node; `topologicalSort` below projects the node
component). -/
structure SortSt where
  visited : List Str
  result : List (Str × DKGNode)
deriving DecidableEq

/-- One step of the parents loop inside `visit`: thread the state through a
child visit, short-circuiting on a thrown error (and on fuel exhaustion). -/
def visitFoldStep (visit1 : SortSt → Str → Option (Except SortErr SortSt))
    (acc : Option (Except SortErr SortSt)) (p : Str) : Option (Except SortErr SortSt) :=
  match acc with
  | some (.ok st) => visit1 st p
  | other => other

/-- Embedding of the recursive `visit` closure of `DKG.topologicalSort`, with
an explicit fuel bound on the recursion depth (`none` = fuel exhausted;
`visitF_ne_none` below shows the fuel chosen by `topologicalSort` always
suffices). The `visiting` stack is passed downward only: the source's
`visiting.add`/`visiting.delete` bracket is modelled by extending `visiting`
for the recursive calls, which restores it on return exactly as the source
does on every non-throwing path. -/
def visitF (g : DKG) : Nat → List Str → SortSt → Str → Option (Except SortErr SortSt)
  | 0, _, _, _ => none
  | fuel + 1, visiting, st, nodeId =>
    if nodeId ∈ visiting then some (.error (.cycleDetected nodeId))
    else if nodeId ∈ st.visited then some (.ok st)
    else
      match mapGet g.nodes nodeId with
      | none => some (.error (.nodeNotFound nodeId))
      | some node =>
        match node.parents.foldl (visitFoldStep (visitF g fuel (nodeId :: visiting)))
            (some (.ok st)) with
        | none => none
        | some (.error e) => some (.error e)
        | some (.ok st₂) => some (.ok ⟨nodeId :: st₂.visited, st₂.result ++ [(nodeId, node)]⟩)

/-- The parents loop of `visit` (a left fold of `visitFoldStep` over the
parent list). -/
def visitListF (g : DKG) (fuel : Nat) (visiting : List Str) (st : SortSt)
    (ps : List Str) : Option (Except SortErr SortSt) :=
  ps.foldl (visitFoldStep (visitF g fuel visiting)) (some (.ok st))

/-- Fuel used by `topologicalSort`: one more than the number of stored nodes
(the DFS stack never holds two copies of a key, so its depth is at most the
node count). -/
def topoFuel (g : DKG) : Nat :=
  (mapKeys g.nodes).length + 1

/-- Outer loop of `topologicalSort`: visit every stored key not yet visited. -/
def topoOuterF (g : DKG) : SortSt → List Str → Option (Except SortErr SortSt)
  | st, [] => some (.ok st)
  | st, id :: ids =>
    if id ∈ st.visited then topoOuterF g st ids
    else
      match visitF g (topoFuel g) [] st id with
      | none => none
      | some (.error e) => some (.error e)
      | some (.ok st₂) => topoOuterF g st₂ ids

/-- Embedding of `DKG.topologicalSort`, keeping the instrumented (id, node)
result entries. The `none` (fuel exhausted) branch is unreachable — see
`topoOuterF_ne_none` — and is mapped to an arbitrary error value. -/
def topologicalSortPairs (g : DKG) : Except SortErr (List (Str × DKGNode)) :=
  match topoOuterF g ⟨[], []⟩ (mapKeys g.nodes) with
  | none => .error (.cycleDetected [])
  | some (.error e) => .error e
  | some (.ok st) => .ok st.result

/-- Embedding of `DKG.topologicalSort` as the source exposes it: the list of
nodes in dependency order (or the thrown error). -/
def topologicalSort (g : DKG) : Except SortErr (List DKGNode) :=
  (topologicalSortPairs g).map (fun l => l.map Prod.snd)

/-! ## Definitions: specification-side predicates for the sort -/

/-- `p` is declared as a causal parent of the stored node `c`. -/
def parentOf (g : DKG) (c p : Str) : Prop :=
  ∃ n, mapGet g.nodes c = some n ∧ p ∈ n.parents

/-- Every parent id referenced by a stored node is itself a stored key. -/
def ParentsClosed (g : DKG) : Prop :=
  ∀ id n, mapGet g.nodes id = some n → ∀ p ∈ n.parents, p ∈ mapKeys g.nodes

/-- The parent relation has no cycles. -/
def Acyclic (g : DKG) : Prop :=
  ∀ id, ¬ Relation.TransGen (parentOf g) id id

/-- Some stored node references a parent id that is not a stored key. -/
def HasDanglingParent (g : DKG) : Prop :=
  ∃ c n p, mapGet g.nodes c = some n ∧ p ∈ n.parents ∧ p ∉ mapKeys g.nodes

/-- Well-formedness of a result list: keys are distinct, every entry is the
stored node of its id, and every parent of an entry appears strictly earlier
in the list. -/
def ResultOk (g : DKG) (l : List (Str × DKGNode)) : Prop :=
  (l.map Prod.fst).Nodup ∧
    (∀ e ∈ l, mapGet g.nodes e.1 = some e.2) ∧
    ∀ pre e suf, l = pre ++ e :: suf → ∀ p ∈ e.2.parents, p ∈ pre.map Prod.fst

/-- Invariant tying the `visited` set to the `result` array during the sort. -/
def GoodState (g : DKG) (st : SortSt) : Prop :=
  st.visited = (st.result.map Prod.fst).reverse ∧ ResultOk g st.result

/-- Number of stored keys not on the `visiting` stack; bounds the remaining
DFS depth. -/
def gapTo (g : DKG) (visiting : List Str) : Nat :=
  ((mapKeys g.nodes).filter (fun k => decide (k ∉ visiting))).length

/-! ## Definitions: descendant counting (`DKG.countDescendants`) -/

/-- One step of the children loop in `countDescendants`: thread the running
total and the shared visited set through one child count, propagating fuel
exhaustion. -/
def countFoldStep (count1 : List Str → Str → Option (Nat × List Str))
    (acc : Option (Nat × List Str)) (c : Str) : Option (Nat × List Str) :=
  match acc with
  | some (n, visited) =>
    match count1 visited c with
    | some (m, visited₂) => some (n + m, visited₂)
    | none => none
  | none => none

/-- Embedding of the recursive `count` closure of `DKG.countDescendants`: an
already-visited id contributes `0`; otherwise the id is marked visited and
contributes its child-list length plus the recursive counts of its children
(the visited set is shared across the whole traversal). The fuel bounds the
recursion depth; `countF_ne_none` below shows the fuel chosen by
`countDescendants` always suffices. -/
def countF (g : DKG) : Nat → List Str → Str → Option (Nat × List Str)
  | 0, _, _ => none
  | fuel + 1, visited, id =>
    if id ∈ visited then some (0, visited)
    else
      (DKG.getChildren g id).foldl (countFoldStep (countF g fuel))
        (some ((DKG.getChildren g id).length, id :: visited))

/-- All ids occurring in some child list of the adjacency map. -/
def edgesTargets (g : DKG) : List Str :=
  g.edges.flatMap (fun e => e.2)

/-- Fuel used by `countDescendants`: the recursion depth is bounded by the
number of distinct child ids plus one. -/
def descFuel (g : DKG) : Nat :=
  (edgesTargets g).length + 2

/-- Embedding of `DKG.countDescendants`. The `none` (fuel exhausted) branch is
unreachable — see `countDescendants_eq_countF` — and is mapped to `0`. -/
def countDescendants (g : DKG) (nodeId : Str) : Nat :=
  match countF g (descFuel g) [] nodeId with
  | some (n, _) => n
  | none => 0

/-- Ids not on the visited list among the adjacency targets; bounds the
remaining depth of the count recursion. -/
def gapEdges (g : DKG) (visited : List Str) : Nat :=
  ((edgesTargets g).filter (fun k => decide (k ∉ visited))).length

/-- Forward reachability along child edges (reflexive-transitive). -/
def Reach (g : DKG) (a b : Str) : Prop :=
  Relation.ReflTransGen (fun x y => y ∈ DKG.getChildren g x) a b

/-! ## Definitions: contribution weights (`DKG.computeContributionWeights`) -/

/-- Attribution key of a node: the decimal rendering of `agentId` when
present, else the author string (`node.agentId ? node.agentId.toString() :
node.author`). -/
def agentKeyOf (n : DKGNode) : Str :=
  match n.agentId with
  | some a => natRepr a
  | none => n.author

/-- Body of the accumulation loop of `computeContributionWeights`: add the
node's raw score `1 + 0.1 × descendants` to its author key's running total. -/
def weightStep (g : DKG) (acc : List (Str × ℚ)) (e : Str × DKGNode) : List (Str × ℚ) :=
  mapSet acc (agentKeyOf e.2)
    ((mapGet acc (agentKeyOf e.2)).getD 0 + (1 + (countDescendants g e.1 : ℚ) * (1 / 10)))

/-- Accumulated per-author contributions (`agentContributions` in the
source). -/
def contribsOf (g : DKG) : List (Str × ℚ) :=
  g.nodes.foldl (weightStep g) []

/-- Grand total of the contributions. -/
def totalOf (g : DKG) : ℚ :=
  ((contribsOf g).map (fun e => e.2)).sum

/-- Embedding of `DKG.computeContributionWeights` over exact rationals: each
node contributes `1 + 0.1 × descendants` to its author key, and the
accumulated contributions are normalized by their grand total. -/
def computeContributionWeights (g : DKG) : List (Str × ℚ) :=
  (contribsOf g).map (fun e => (e.1, e.2 / totalOf g))

/-! ## Definitions: thread root (`DKG.computeThreadRoot`) -/

/-- One pass of the pairwise hashing loop of `computeThreadRoot`: hash
adjacent pairs left-to-right, carrying an unpaired final element unchanged. -/
def pairRound {D : Type} (hashPair : D → D → D) : List D → List D
  | [] => []
  | [x] => [x]
  | x :: y :: rest => hashPair x y :: pairRound hashPair rest

/-- The `while (current.length > 1)` loop of `computeThreadRoot`, with a fuel
bound on the number of rounds (`reduceRoundsF_reducesTo` shows the fuel used
by `computeThreadRoot` always reaches a single digest). -/
def reduceRoundsF {D : Type} (hashPair : D → D → D) : Nat → List D → List D
  | 0, cur => cur
  | fuel + 1, cur =>
    if 1 < cur.length then reduceRoundsF hashPair fuel (pairRound hashPair cur) else cur

/-- Embedding of `DKG.computeThreadRoot`, parameterized by `ethers.ZeroHash`
(`dzero`), the leaf hash (`keccak256 ∘ toUtf8Bytes`) and the pair hash
(`keccak256 ∘ concat`). A cycle or missing-parent throw from the sort
propagates as the error. -/
def computeThreadRoot {D : Type} (dzero : D) (hashLeaf : Str → D)
    (hashPair : D → D → D) (g : DKG) : Except SortErr D :=
  match topologicalSortPairs g with
  | .error e => .error e
  | .ok sortedNodes =>
    if sortedNodes.length = 0 then .ok dzero
    else
      let hashes := sortedNodes.map (fun e => computeCanonicalHash hashLeaf e.2)
      if hashes.length = 1 then .ok (hashes.headD dzero)
      else .ok ((reduceRoundsF hashPair hashes.length hashes).headD dzero)

/-- Modelled from the spec wording of the general case of `threadRoot`: a
digest list reduces to the digest obtained by repeatedly hashing concatenated
adjacent pairs (left-to-right, carrying an unpaired final element unchanged
to the next round) until one digest remains. -/
inductive ReducesTo {D : Type} (hashPair : D → D → D) : List D → D → Prop where
  | single (x : D) : ReducesTo hashPair [x] x
  | step {l : List D} {d : D} :
      1 < l.length → ReducesTo hashPair (pairRound hashPair l) d → ReducesTo hashPair l d

/-! ## Definitions: causal chain tracing (`DKG.traceCausalChain`) -/

/-- Embedding of the BFS loop of `DKG.traceCausalChain`, with an explicit fuel
bound on the number of dequeues (`none` = fuel exhausted; `traceF_ne_none`
below shows the fuel chosen by `traceCausalChain` always suffices). Each queue
entry pairs a frontier id with the id path that reached it; the source marks
the dequeued id visited before scanning its children, so the enqueue filter
checks `e.1 :: visited`. An empty queue means no path was found and yields the
empty path. -/
def traceF (g : DKG) (toId : Str) : Nat → List (Str × List Str) → List Str → Option (List Str)
  | _, [], _ => some []
  | 0, _ :: _, _ => none
  | fuel + 1, e :: queue, visited =>
    if e.1 = toId then some e.2
    else if e.1 ∈ visited then traceF g toId fuel queue visited
    else
      traceF g toId fuel
        (queue ++ ((DKG.getChildren g e.1).filter
          (fun c => decide (c ∉ e.1 :: visited))).map (fun c => (c, e.2 ++ [c])))
        (e.1 :: visited)

/-- Total length of the child lists of the stored ids not yet visited; bounds
the number of future BFS enqueues. -/
def outSum (g : DKG) (visited : List Str) : Nat :=
  (((mapKeys g.nodes).filter (fun k => decide (k ∉ visited))).map
    (fun k => (DKG.getChildren g k).length)).sum

/-- Fuel used by `traceCausalChain`: dequeues never outnumber enqueues, and
beyond the seed entry every enqueue consumes one stored edge of an unvisited
node. -/
def traceFuel (g : DKG) : Nat :=
  outSum g [] + 2

/-- Embedding of `DKG.traceCausalChain`: empty result when either endpoint is
absent; otherwise BFS from `fromId` along child edges, returning the stored
nodes of the first id path that reaches `toId` (ids missing from the node map
are dropped, mirroring `.filter(Boolean)`), or the empty list when the queue
empties. The `none` (fuel exhausted) branch is unreachable — see
`traceF_ne_none` — and is mapped to the empty list. -/
def DKG.traceCausalChain (g : DKG) (fromId toId : Str) : List DKGNode :=
  if mapHas g.nodes fromId && mapHas g.nodes toId then
    match traceF g toId (traceFuel g) [(fromId, [fromId])] [] with
    | some path => path.filterMap (fun id => mapGet g.nodes id)
    | none => []
  else []

/-- Proof instrumentation of `traceF`: the visited set additionally records
the path length at which each id was dequeued; `traceF_eq_traceFI` relates
the two functions. -/
def traceFI (g : DKG) (toId : Str) :
    Nat → List (Str × List Str) → List (Str × Nat) → Option (List Str)
  | _, [], _ => some []
  | 0, _ :: _, _ => none
  | fuel + 1, e :: queue, visitedL =>
    if e.1 = toId then some e.2
    else if e.1 ∈ visitedL.map Prod.fst then traceFI g toId fuel queue visitedL
    else
      traceFI g toId fuel
        (queue ++ ((DKG.getChildren g e.1).filter
          (fun c => decide (c ∉ e.1 :: visitedL.map Prod.fst))).map
          (fun c => (c, e.2 ++ [c])))
        ((e.1, e.2.length) :: visitedL)

/-- Forward id paths of the graph: `PathTo g a b p` states that `p` is a
nonempty id sequence starting at `a`, ending at `b`, with each consecutive
pair linked by a stored child edge. -/
inductive PathTo (g : DKG) (a : Str) : Str → List Str → Prop where
  | refl : PathTo g a a [a]
  | snoc {b c : Str} {p : List Str} : PathTo g a b p → c ∈ DKG.getChildren g b →
      PathTo g a c (p ++ [c])

/-- BFS loop invariant: queue entries carry genuine paths, sorted by
nondecreasing length inside the window `[m, m + 1]`; visited ids were dequeued
at lengths at most `m`, never include the target, and have every child either
visited or queued within one extra step; the source id is accounted for at
length `1`. -/
def BFSInv (g : DKG) (fromId toId : Str) (queue : List (Str × List Str))
    (visitedL : List (Str × Nat)) (m : Nat) : Prop :=
  (∀ e ∈ queue, PathTo g fromId e.1 e.2) ∧
  List.Sorted (fun a b : Nat => a ≤ b) (queue.map (fun e => e.2.length)) ∧
  (∀ e ∈ queue, m ≤ e.2.length ∧ e.2.length ≤ m + 1) ∧
  (∀ vd ∈ visitedL, vd.2 ≤ m) ∧
  (∀ vd ∈ visitedL, vd.1 ≠ toId) ∧
  (∀ vd ∈ visitedL, ∀ c ∈ DKG.getChildren g vd.1,
    (∃ d, (c, d) ∈ visitedL ∧ d ≤ vd.2 + 1) ∨
    (∃ e ∈ queue, e.1 = c ∧ e.2.length ≤ vd.2 + 1)) ∧
  ((∃ e ∈ queue, e.1 = fromId ∧ e.2.length ≤ 1) ∨ ∃ d, (fromId, d) ∈ visitedL ∧ d ≤ 1)

/-! ## Definitions: causality audit (`VerifierAgent.auditCausality`)

The issue strings pushed by the source are embedded as structured values; each
constructor stands for one of the three distinct message templates of the
source (`Node … references missing parent …`, `Node … has timestamp … before
parent … (…)`, `Cycle detected in DKG: …`), which carry exactly the data
recorded here.
-/

/-- Issue entries accumulated by `auditCausality`. -/
inductive Issue where
  | missingParent (child parent : Str)
  | tsViolation (child : Str) (childTs : Int) (parent : Str) (parentTs : Int)
  | cycleIssue (e : SortErr)
deriving DecidableEq

/-- Report object returned by `auditCausality`. -/
structure AuditReport where
  passed : Bool
  issues : List Issue
  nodeCount : Nat
  edgeCount : Nat
  rootNodeCount : Nat
deriving DecidableEq

/-- First audit loop: one issue per parent reference whose id is not a stored
key, in iteration order. -/
def missingParentIssues (g : DKG) : List Issue :=
  g.nodes.flatMap (fun e =>
    e.2.parents.filterMap (fun p =>
      if mapHas g.nodes p then none else some (.missingParent e.1 p)))

/-- Second audit loop: one issue per parent→child pair whose parent is stored
and has a strictly larger timestamp than the child. -/
def tsIssues (g : DKG) : List Issue :=
  g.nodes.flatMap (fun e =>
    e.2.parents.filterMap (fun p =>
      match mapGet g.nodes p with
      | some parent => if e.2.ts < parent.ts then
          some (.tsViolation e.1 e.2.ts p parent.ts) else none
      | none => none))

/-- Third audit step: run the sort inside `try`/`catch` and record one issue
for any thrown error. -/
def cycleIssues (g : DKG) : List Issue :=
  match topologicalSort g with
  | .error e => [.cycleIssue e]
  | .ok _ => []

/-- Embedding of `VerifierAgent.auditCausality`. -/
def auditCausality (g : DKG) : AuditReport :=
  let issues := missingParentIssues g ++ tsIssues g ++ cycleIssues g
  { passed := issues.isEmpty,
    issues := issues,
    nodeCount := g.nodes.length,
    edgeCount := g.edgeCount,
    rootNodeCount := g.rootNodes.length }

/-- Issue list as enumerated by claim C3's wording: the same first two loops,
but an entry for the third check only when the topological sort fails with a
cycle error (rather than with any error). -/
def auditIssuesClaimed (g : DKG) : List Issue :=
  missingParentIssues g ++ tsIssues g ++
    (match topologicalSort g with
     | .error (.cycleDetected id) => [.cycleIssue (.cycleDetected id)]
     | _ => [])

/-! ## Definitions: concrete witness data -/

/-- Parentless node used by concrete sort witnesses. -/
def wRoot : DKGNode :=
  { author := ['A'], sig := ['s'], ts := (1 : Int), xmtpMsgId := ['r'],
    artifactIds := [], payloadHash := ['h'], parents := [], agentId := none }

/-- Node whose only parent is `wRoot`. -/
def wLeaf : DKGNode :=
  { author := ['B'], sig := ['s'], ts := (2 : Int), xmtpMsgId := ['l', 'f'],
    artifactIds := [], payloadHash := ['h'], parents := [['r']], agentId := none }

/-- Two-node acyclic closed graph used by the C7 witness. -/
def c7G : DKG := DKG.ofNodes [wRoot, wLeaf]

/-- Node `a` referencing the never-added parent `p`. -/
def c8ChildA : DKGNode :=
  { author := ['A'], sig := ['s'], ts := (1 : Int), xmtpMsgId := ['a'],
    artifactIds := [], payloadHash := ['h'], parents := [['p']], agentId := none }

/-- Node `b` referencing the never-added parent `p`. -/
def c8ChildB : DKGNode :=
  { author := ['A'], sig := ['s'], ts := (1 : Int), xmtpMsgId := ['b'],
    artifactIds := [], payloadHash := ['h'], parents := [['p']], agentId := none }

/-- Graph whose only node `a` references the missing parent `p`. -/
def c8GA : DKG := DKG.ofNodes [c8ChildA]

/-- Graph whose only node `b` references the missing parent `p`. -/
def c8GB : DKG := DKG.ofNodes [c8ChildB]

/-- Node `c` referencing the never-added parent `q`, for the C3
counterexample. -/
def c3Child : DKGNode :=
  { author := ['A'], sig := ['s'], ts := (1 : Int), xmtpMsgId := ['c'],
    artifactIds := [], payloadHash := ['h'], parents := [['q']], agentId := none }

/-- Graph whose only node `c` references the missing parent `q`. -/
def c3G : DKG := DKG.ofNodes [c3Child]

/-- Diamond node `a` (no parents). -/
def c4A : DKGNode :=
  { author := ['A'], sig := ['s'], ts := (1 : Int), xmtpMsgId := ['a'],
    artifactIds := [], payloadHash := ['h'], parents := [], agentId := none }

/-- Diamond node `b` (parent `a`). -/
def c4B : DKGNode :=
  { author := ['B'], sig := ['s'], ts := (2 : Int), xmtpMsgId := ['b'],
    artifactIds := [], payloadHash := ['h'], parents := [['a']], agentId := none }

/-- Diamond node `c` (parent `a`). -/
def c4C : DKGNode :=
  { author := ['C'], sig := ['s'], ts := (2 : Int), xmtpMsgId := ['c'],
    artifactIds := [], payloadHash := ['h'], parents := [['a']], agentId := none }

/-- Diamond node `d` (parents `b` and `c`): reachable from `a` along two
paths. -/
def c4D : DKGNode :=
  { author := ['D'], sig := ['s'], ts := (3 : Int), xmtpMsgId := ['d'],
    artifactIds := [], payloadHash := ['h'], parents := [['b'], ['c']], agentId := none }

/-- Diamond graph used by the C4 counterexample and witness. -/
def c4G : DKG := DKG.ofNodes [c4A, c4B, c4C, c4D]

/-- Node used by the C10 witness: id `w`, parents `[r, r]` (the same parent
listed twice). -/
def c10Node : DKGNode :=
  { author := ['A'], sig := ['s'], ts := (3 : Int), xmtpMsgId := ['w'],
    artifactIds := [], payloadHash := ['h'], parents := [['r'], ['r']], agentId := none }


/-- Concrete node used by the C6 witness. -/
def c6NodeA : DKGNode :=
  { author := ['0', 'x', 'A'], sig := ['s'], ts := (1000 : Int),
    xmtpMsgId := ['m', '1'], artifactIds := [], payloadHash := ['p', 'h'],
    parents := [['a'], ['b'], ['c']], agentId := none }

/-- Concrete node used by the C6 witness: same fields as `c6NodeA` with the
parents in a different order. -/
def c6NodeB : DKGNode :=
  { author := ['0', 'x', 'A'], sig := ['s'], ts := (1000 : Int),
    xmtpMsgId := ['m', '1'], artifactIds := [], payloadHash := ['p', 'h'],
    parents := [['c'], ['a'], ['b']], agentId := none }

/-- Concrete node whose two parents are `p1` and `p2`; collides with
`c5NodeB` under the canonical serialization. -/
def c5NodeA : DKGNode :=
  { author := ['A'], sig := ['s'], ts := (0 : Int),
    xmtpMsgId := ['m'], artifactIds := [], payloadHash := ['h'],
    parents := [['p', '1'], ['p', '2']], agentId := none }

/-- Concrete node whose single parent is the string `p1|p2`; collides with
`c5NodeA` under the canonical serialization. -/
def c5NodeB : DKGNode :=
  { author := ['A'], sig := ['s'], ts := (0 : Int),
    xmtpMsgId := ['m'], artifactIds := [], payloadHash := ['h'],
    parents := [['p', '1', '|', 'p', '2']], agentId := none }

/-- Concrete pipe-free node used by the C5 amended witness. -/
def c5NodeC : DKGNode :=
  { author := ['A'], sig := ['s'], ts := (0 : Int),
    xmtpMsgId := ['m'], artifactIds := [], payloadHash := ['h'],
    parents := [['p', '1']], agentId := none }

/-- Concrete pipe-free node differing from `c5NodeC` in its parent set. -/
def c5NodeD : DKGNode :=
  { author := ['A'], sig := ['s'], ts := (0 : Int),
    xmtpMsgId := ['m'], artifactIds := [], payloadHash := ['h'],
    parents := [['p', '2']], agentId := none }

/-! ## Theorems: JS `Map` lemmas -/

theorem mapGet_eq_none_iff {α : Type} (m : List (Str × α)) (k : Str) :
    mapGet m k = none ↔ k ∉ mapKeys m := by
  induction m with
  | nil => simp [mapGet, mapKeys]
  | cons p rest ih =>
    obtain ⟨k₂, v⟩ := p
    by_cases h : k₂ = k
    · subst h
      simp only [mapGet, mapKeys, List.map_cons, List.mem_cons, if_pos rfl]
      exact iff_of_false (Option.some_ne_none v) (by intro hc; exact hc (Or.inl trivial))
    · simp only [mapGet, mapKeys, List.map_cons, List.mem_cons, if_neg h]
      rw [ih]
      constructor
      · intro hk hc
        rcases hc with hc | hc
        · exact h hc.symm
        · exact hk hc
      · intro hk hc
        exact hk (Or.inr hc)

theorem mapGet_isSome_iff {α : Type} (m : List (Str × α)) (k : Str) :
    (mapGet m k).isSome = true ↔ k ∈ mapKeys m := by
  rw [Option.isSome_iff_ne_none]
  constructor
  · intro h
    by_contra hk
    exact h ((mapGet_eq_none_iff m k).mpr hk)
  · intro h he
    exact ((mapGet_eq_none_iff m k).mp he) h

theorem mapHas_iff {α : Type} (m : List (Str × α)) (k : Str) :
    mapHas m k = true ↔ k ∈ mapKeys m := by
  unfold mapHas; exact mapGet_isSome_iff m k

theorem mapGet_mem {α : Type} {m : List (Str × α)} {k : Str} {v : α}
    (h : mapGet m k = some v) : (k, v) ∈ m := by
  induction m with
  | nil => simp [mapGet] at h
  | cons p rest ih =>
    obtain ⟨k₂, v₂⟩ := p
    by_cases hk : k₂ = k
    · subst hk
      simp [mapGet] at h
      subst h
      exact List.mem_cons_self _ _
    · simp [mapGet, hk] at h
      exact List.mem_cons_of_mem _ (ih h)

theorem mem_of_mapGet_eq_some {α : Type} {m : List (Str × α)} {k : Str} {v : α}
    (h : mapGet m k = some v) : k ∈ mapKeys m := by
  exact (mapGet_isSome_iff m k).mp (by rw [h]; rfl)

theorem mapKeys_mapSet {α : Type} (m : List (Str × α)) (k : Str) (v : α) :
    mapKeys (mapSet m k v) = if k ∈ mapKeys m then mapKeys m else mapKeys m ++ [k] := by
  induction m with
  | nil => simp [mapSet, mapKeys]
  | cons p rest ih =>
    obtain ⟨k₂, v₂⟩ := p
    by_cases h : k₂ = k
    · subst h
      have hset : mapSet ((k₂, v₂) :: rest) k₂ v = (k₂, v) :: rest := by
        unfold mapSet
        rw [if_pos rfl]
      rw [hset]
      simp only [mapKeys, List.map_cons]
      rw [if_pos (List.mem_cons_self _ _)]
    · simp only [mapSet, if_neg h, mapKeys, List.map_cons]
      have hne : ¬(k = k₂) := fun hc => h hc.symm
      have ih₂ : List.map Prod.fst (mapSet rest k v) =
          if k ∈ List.map Prod.fst rest then List.map Prod.fst rest
          else List.map Prod.fst rest ++ [k] := ih
      rw [ih₂]
      by_cases hmem : k ∈ List.map Prod.fst rest
      · rw [if_pos hmem, if_pos (List.mem_cons_of_mem _ hmem)]
      · rw [if_neg hmem,
          if_neg (fun hc => (List.mem_cons.mp hc).elim hne hmem), List.cons_append]

theorem mapGet_mapSet_self {α : Type} (m : List (Str × α)) (k : Str) (v : α) :
    mapGet (mapSet m k v) k = some v := by
  induction m with
  | nil => simp [mapSet, mapGet]
  | cons p rest ih =>
    obtain ⟨k₂, v₂⟩ := p
    by_cases h : k₂ = k
    · subst h; simp [mapSet, mapGet]
    · simp [mapSet, mapGet, h, ih]

theorem mapGet_mapSet_ne {α : Type} (m : List (Str × α)) (k a : Str) (v : α)
    (h : k ≠ a) : mapGet (mapSet m k v) a = mapGet m a := by
  induction m with
  | nil => simp [mapSet, mapGet, h]
  | cons p rest ih =>
    obtain ⟨k₂, v₂⟩ := p
    by_cases hk : k₂ = k
    · subst hk; simp [mapSet, mapGet, h]
    · by_cases ha : k₂ = a
      · subst ha; simp [mapSet, mapGet, hk]
      · simp [mapSet, mapGet, hk, ha, ih]

theorem mapKeys_nodup_mapSet {α : Type} {m : List (Str × α)} (k : Str) (v : α)
    (h : (mapKeys m).Nodup) : (mapKeys (mapSet m k v)).Nodup := by
  rw [mapKeys_mapSet]
  by_cases hmem : k ∈ mapKeys m
  · simpa [hmem]
  · simp only [hmem, if_false]
    simpa [List.nodup_append] using ⟨h, hmem⟩

/-! ## Theorems: decimal rendering is pipe-free -/

theorem digitChar10_ne_pipe {d : Nat} (h : d < 10) : digitChar10 d ≠ '|' := by
  interval_cases d <;> decide

theorem natRepr_pipe_free (n : Nat) : ∀ c ∈ natRepr n, c ≠ '|' := by
  intro c hc
  unfold natRepr at hc
  by_cases h : n = 0
  · simp [h] at hc
    subst hc; decide
  · simp [h] at hc
    obtain ⟨d, hd, hdc⟩ := hc
    subst hdc
    exact digitChar10_ne_pipe (Nat.digits_lt_base (by norm_num) hd)

theorem intRepr_pipe_free (t : Int) : ∀ c ∈ intRepr t, c ≠ '|' := by
  intro c hc
  cases t with
  | ofNat n => exact natRepr_pipe_free n c hc
  | negSucc n =>
    simp only [intRepr, List.mem_cons] at hc
    rcases hc with h | h
    · subst h; decide
    · exact natRepr_pipe_free _ c h

/-! ## Theorems: sorting the parents -/

theorem sortParents_perm (l : List Str) : (sortParents l).Perm l :=
  List.perm_insertionSort _ l

theorem sortParents_eq_of_perm {l₁ l₂ : List Str} (h : l₁.Perm l₂) :
    sortParents l₁ = sortParents l₂ := by
  apply List.eq_of_perm_of_sorted (r := fun a b : Str => a ≤ b)
    (((List.perm_insertionSort _ l₁).trans h).trans (List.perm_insertionSort _ l₂).symm)
  · exact List.sorted_insertionSort _ l₁
  · exact List.sorted_insertionSort _ l₂

theorem sortParents_eq_nil_iff (l : List Str) : sortParents l = [] ↔ l = [] := by
  constructor
  · intro h
    have := sortParents_perm l
    rw [h] at this
    exact this.nil_eq.symm
  · intro h
    subst h
    rfl

/-- C6: the canonical hash of a node is invariant under permuting its parent
list: for every hash function, two nodes that agree on author, timestamp,
message id and payload hash and whose parent lists are permutations of each
other have the same canonical hash. -/
theorem C6_canonical_hash_parent_order_independent {D : Type} (hashLeaf : Str → D)
    (n₁ n₂ : DKGNode)
    (ha : n₁.author = n₂.author) (ht : n₁.ts = n₂.ts)
    (hi : n₁.xmtpMsgId = n₂.xmtpMsgId) (hp : n₁.payloadHash = n₂.payloadHash)
    (hperm : n₁.parents.Perm n₂.parents) :
    computeCanonicalHash hashLeaf n₁ = computeCanonicalHash hashLeaf n₂ := by
  unfold computeCanonicalHash canonicalString
  rw [ha, ht, hi, hp, sortParents_eq_of_perm hperm]

/-- Witness for C6 at a concrete pair of nodes differing only in parent
order. -/
theorem C6_witness :
    c6NodeA.parents.Perm c6NodeB.parents ∧
      computeCanonicalHash (fun s => s) c6NodeA = computeCanonicalHash (fun s => s) c6NodeB :=
  ⟨by decide,
    C6_canonical_hash_parent_order_independent (fun s => s) c6NodeA c6NodeB
      rfl rfl rfl rfl (by decide)⟩

/-! ## Theorems: pipe splitting and joining (claim C5) -/

theorem splitPipe_ne_nil (s : Str) : splitPipe s ≠ [] := by
  cases s with
  | nil => simp [splitPipe]
  | cons c cs =>
    unfold splitPipe
    cases h : splitPipe cs with
    | nil => simp
    | cons g gs =>
      by_cases hc : c = '|' <;> simp [hc]

theorem splitPipe_pipe_cons (s : Str) : splitPipe ('|' :: s) = [] :: splitPipe s := by
  cases h : splitPipe s with
  | nil => exact absurd h (splitPipe_ne_nil s)
  | cons g gs =>
    simp only [splitPipe]
    rw [h]
    simp

theorem splitPipe_append_free (xs : Str) (hxs : ∀ c ∈ xs, c ≠ '|') (rest : Str)
    {g : Str} {gs : List Str} (h : splitPipe rest = g :: gs) :
    splitPipe (xs ++ rest) = (xs ++ g) :: gs := by
  induction xs with
  | nil => simpa using h
  | cons c cs ih =>
    have hc : c ≠ '|' := hxs c (List.mem_cons_self _ _)
    have ih₂ := ih (fun d hd => hxs d (List.mem_cons_of_mem _ hd))
    rw [List.cons_append]
    unfold splitPipe
    rw [ih₂]
    simp [hc]

theorem splitPipe_joinPipe (parts : List Str) (hne : parts ≠ [])
    (hfree : ∀ p ∈ parts, ∀ c ∈ p, c ≠ '|') : splitPipe (joinPipe parts) = parts := by
  induction parts with
  | nil => exact absurd rfl hne
  | cons x rest ih =>
    cases rest with
    | nil =>
      have hx : ∀ c ∈ x, c ≠ '|' := hfree x (List.mem_cons_self _ _)
      have : splitPipe (x ++ ([] : Str)) = (x ++ []) :: ([] : List Str) :=
        splitPipe_append_free x hx [] rfl
      simpa [joinPipe] using this
    | cons y rest₂ =>
      have hx : ∀ c ∈ x, c ≠ '|' := hfree x (List.mem_cons_self _ _)
      have hrest : ∀ p ∈ y :: rest₂, ∀ c ∈ p, c ≠ '|' :=
        fun p hp => hfree p (List.mem_cons_of_mem _ hp)
      have ih₂ : splitPipe (joinPipe (y :: rest₂)) = y :: rest₂ :=
        ih (by simp) hrest
      have hsplit : splitPipe ('|' :: joinPipe (y :: rest₂)) =
          [] :: y :: rest₂ := by
        rw [splitPipe_pipe_cons, ih₂]
      show splitPipe (x ++ '|' :: joinPipe (y :: rest₂)) = x :: y :: rest₂
      rw [splitPipe_append_free x hx _ hsplit, List.append_nil]

theorem joinPipe_cons_of_ne_nil (x : Str) {l : List Str} (h : l ≠ []) :
    joinPipe (x :: l) = x ++ '|' :: joinPipe l := by
  cases l with
  | nil => exact absurd rfl h
  | cons y rest => rfl

theorem joinPipe_append_flatten (xs : List Str) (ps : List Str) (h : ps ≠ []) :
    joinPipe (xs ++ [joinPipe ps]) = joinPipe (xs ++ ps) := by
  induction xs with
  | nil =>
    simp only [List.nil_append]
    cases ps with
    | nil => exact absurd rfl h
    | cons y rest => rfl
  | cons x xs ih =>
    rw [List.cons_append, List.cons_append,
      joinPipe_cons_of_ne_nil x (by simp),
      joinPipe_cons_of_ne_nil x (by simp [h]), ih]

/-- C5 as stated is false: `c5NodeA` (parents `p1`, `p2`) and `c5NodeB`
(single parent `p1|p2`) have different hashed field tuples but identical
canonical serializations, because the pipe separator occurs inside a parent
id. -/
theorem C5_counterexample :
    hashedTuple c5NodeA ≠ hashedTuple c5NodeB ∧
      canonicalString c5NodeA = canonicalString c5NodeB := by
  constructor
  · decide
  · decide

/-- C5 amended: for nodes whose author, id, payload-fingerprint fields and
parent ids are free of the pipe separator and whose parent ids are nonempty,
distinct hashed field tuples give distinct canonical serializations (so in
particular any change to the sorted parent set changes the canonical hash
input). -/
theorem C5_serialization_injective_on_pipe_free (n₁ n₂ : DKGNode)
    (h₁ : PipeFreeNode n₁) (h₂ : PipeFreeNode n₂)
    (hne : hashedTuple n₁ ≠ hashedTuple n₂) :
    canonicalString n₁ ≠ canonicalString n₂ := by
  intro heq
  obtain ⟨ha₁, hi₁, hp₁, hpar₁⟩ := h₁
  obtain ⟨ha₂, hi₂, hp₂, hpar₂⟩ := h₂
  -- the canonical string is the pipe join of the four scalar fields followed
  -- by the sorted parent list (or one empty part when there are no parents)
  have flat : ∀ n : DKGNode, PipeFreeNode n →
      ∃ qs : List Str,
        canonicalString n =
          joinPipe ([n.author, intRepr n.ts, n.xmtpMsgId, n.payloadHash] ++ qs) ∧
        (∀ p ∈ qs, ∀ c ∈ p, c ≠ '|') ∧
        (qs = [[]] ∧ sortParents n.parents = [] ∨
          qs = sortParents n.parents ∧ sortParents n.parents ≠ []) := by
    intro n hn
    obtain ⟨hna, hni, hnp, hnpar⟩ := hn
    by_cases hps : sortParents n.parents = []
    · refine ⟨[[]], ?_, by simp, Or.inl ⟨rfl, hps⟩⟩
      unfold canonicalString
      rw [hps]
      rfl
    · refine ⟨sortParents n.parents, ?_, ?_, Or.inr ⟨rfl, hps⟩⟩
      · unfold canonicalString
        exact joinPipe_append_flatten
          [n.author, intRepr n.ts, n.xmtpMsgId, n.payloadHash] _ hps
      · intro p hp c hc
        have hp₃ : p ∈ n.parents := (sortParents_perm n.parents).mem_iff.mp hp
        exact (hnpar p hp₃).2 c hc
  obtain ⟨qs₁, he₁, hq₁, hcase₁⟩ := flat n₁ ⟨ha₁, hi₁, hp₁, hpar₁⟩
  obtain ⟨qs₂, he₂, hq₂, hcase₂⟩ := flat n₂ ⟨ha₂, hi₂, hp₂, hpar₂⟩
  have hfree₁ : ∀ p ∈ [n₁.author, intRepr n₁.ts, n₁.xmtpMsgId, n₁.payloadHash] ++ qs₁,
      ∀ c ∈ p, c ≠ '|' := by
    intro p hp
    rcases List.mem_append.mp hp with hp | hp
    · simp only [List.mem_cons, List.not_mem_nil, or_false] at hp
      rcases hp with h | h | h | h <;> subst h
      · exact ha₁
      · exact intRepr_pipe_free n₁.ts
      · exact hi₁
      · exact hp₁
    · exact hq₁ p hp
  have hfree₂ : ∀ p ∈ [n₂.author, intRepr n₂.ts, n₂.xmtpMsgId, n₂.payloadHash] ++ qs₂,
      ∀ c ∈ p, c ≠ '|' := by
    intro p hp
    rcases List.mem_append.mp hp with hp | hp
    · simp only [List.mem_cons, List.not_mem_nil, or_false] at hp
      rcases hp with h | h | h | h <;> subst h
      · exact ha₂
      · exact intRepr_pipe_free n₂.ts
      · exact hi₂
      · exact hp₂
    · exact hq₂ p hp
  have hlists : [n₁.author, intRepr n₁.ts, n₁.xmtpMsgId, n₁.payloadHash] ++ qs₁ =
      [n₂.author, intRepr n₂.ts, n₂.xmtpMsgId, n₂.payloadHash] ++ qs₂ := by
    have s₁ := splitPipe_joinPipe _ (by simp) hfree₁
    have s₂ := splitPipe_joinPipe _ (by simp) hfree₂
    rw [← s₁, ← s₂, ← he₁, ← he₂, heq]
  simp only [List.cons_append, List.nil_append, List.cons.injEq] at hlists
  obtain ⟨ea, et, ei, ep, eq⟩ := hlists
  have hsp : sortParents n₁.parents = sortParents n₂.parents := by
    rcases hcase₁ with ⟨hq₁e, hs₁⟩ | ⟨hq₁e, hs₁⟩ <;>
      rcases hcase₂ with ⟨hq₂e, hs₂⟩ | ⟨hq₂e, hs₂⟩
    · rw [hs₁, hs₂]
    · exfalso
      rw [hq₁e, hq₂e] at eq
      have : ([] : Str) ∈ sortParents n₂.parents := by
        rw [← eq]
        exact List.mem_cons_self _ _
      have hmem : ([] : Str) ∈ n₂.parents := (sortParents_perm n₂.parents).mem_iff.mp this
      exact (hpar₂ [] hmem).1 rfl
    · exfalso
      rw [hq₁e, hq₂e] at eq
      have : ([] : Str) ∈ sortParents n₁.parents := by
        rw [eq]
        exact List.mem_cons_self _ _
      have hmem : ([] : Str) ∈ n₁.parents := (sortParents_perm n₁.parents).mem_iff.mp this
      exact (hpar₁ [] hmem).1 rfl
    · rw [← hq₁e, ← hq₂e, eq]
  apply hne
  unfold hashedTuple
  rw [ea, et, ei, ep, hsp]

/-- Witness for the amended C5 at a concrete pair of pipe-free nodes with
distinct parent sets. -/
theorem C5_witness :
    PipeFreeNode c5NodeC ∧ PipeFreeNode c5NodeD ∧ hashedTuple c5NodeC ≠ hashedTuple c5NodeD ∧
      canonicalString c5NodeC ≠ canonicalString c5NodeD :=
  ⟨by decide, by decide, by decide,
    C5_serialization_injective_on_pipe_free c5NodeC c5NodeD
      (by decide) (by decide) (by decide)⟩

/-! ## Theorems: unfolding equations for the fueled DFS -/

theorem visitListF_nil (g : DKG) (fuel : Nat) (visiting : List Str) (st : SortSt) :
    visitListF g fuel visiting st [] = some (.ok st) := rfl

theorem foldl_visitFoldStep_none (v : SortSt → Str → Option (Except SortErr SortSt))
    (ps : List Str) : ps.foldl (visitFoldStep v) none = none := by
  induction ps with
  | nil => rfl
  | cons p ps ih => exact ih

theorem foldl_visitFoldStep_error (v : SortSt → Str → Option (Except SortErr SortSt))
    (e : SortErr) (ps : List Str) :
    ps.foldl (visitFoldStep v) (some (.error e)) = some (.error e) := by
  induction ps with
  | nil => rfl
  | cons p ps ih => exact ih

theorem visitListF_cons (g : DKG) (fuel : Nat) (visiting : List Str) (st : SortSt)
    (p : Str) (ps : List Str) :
    visitListF g fuel visiting st (p :: ps) =
      match visitF g fuel visiting st p with
      | none => none
      | some (.error e) => some (.error e)
      | some (.ok st₂) => visitListF g fuel visiting st₂ ps := by
  unfold visitListF
  rw [List.foldl_cons]
  cases hv : visitF g fuel visiting st p with
  | none =>
    show List.foldl _ (visitFoldStep _ (some (.ok st)) p) ps = none
    simp only [visitFoldStep, hv]
    exact foldl_visitFoldStep_none _ ps
  | some r =>
    cases r with
    | error e =>
      show List.foldl _ (visitFoldStep _ (some (.ok st)) p) ps = some (.error e)
      simp only [visitFoldStep, hv]
      exact foldl_visitFoldStep_error _ e ps
    | ok st₂ =>
      show List.foldl _ (visitFoldStep _ (some (.ok st)) p) ps = _
      simp only [visitFoldStep, hv]

theorem visitF_succ (g : DKG) (fuel : Nat) (visiting : List Str) (st : SortSt)
    (nodeId : Str) :
    visitF g (fuel + 1) visiting st nodeId =
      if nodeId ∈ visiting then some (.error (.cycleDetected nodeId))
      else if nodeId ∈ st.visited then some (.ok st)
      else
        match mapGet g.nodes nodeId with
        | none => some (.error (.nodeNotFound nodeId))
        | some node =>
          match visitListF g fuel (nodeId :: visiting) st node.parents with
          | none => none
          | some (.error e) => some (.error e)
          | some (.ok st₂) => some (.ok ⟨nodeId :: st₂.visited, st₂.result ++ [(nodeId, node)]⟩) :=
  rfl

/-! ## Theorems: the fuel used by `topologicalSort` is sufficient -/

theorem gapTo_cons_lt (g : DKG) {id : Str} {visiting : List Str}
    (hk : id ∈ mapKeys g.nodes) (hv : id ∉ visiting) :
    gapTo g (id :: visiting) < gapTo g visiting := by
  unfold gapTo
  have h1 : (mapKeys g.nodes).filter (fun k => decide (k ∉ id :: visiting)) =
      ((mapKeys g.nodes).filter (fun k => decide (k ∉ visiting))).filter
        (fun k => decide (k ∉ id :: visiting)) := by
    rw [List.filter_filter]
    apply List.filter_congr
    intro a _
    by_cases hqa : a ∈ id :: visiting
    · simp [hqa]
    · have hpa : a ∉ visiting := fun hc => hqa (List.mem_cons_of_mem _ hc)
      simp [hqa, hpa]
  rw [h1]
  apply List.length_filter_lt_length_iff_exists.mpr
  refine ⟨id, ?_, ?_⟩
  · rw [List.mem_filter]
    exact ⟨hk, by simpa using hv⟩
  · simp

theorem visitF_ne_none (g : DKG) :
    ∀ fuel visiting st id, gapTo g visiting < fuel → visitF g fuel visiting st id ≠ none := by
  intro fuel
  induction fuel with
  | zero =>
    intro visiting st id h
    exact absurd h (Nat.not_lt_zero _)
  | succ fuel ih =>
    have ihList : ∀ (ps : List Str) visiting st, gapTo g visiting < fuel →
        visitListF g fuel visiting st ps ≠ none := by
      intro ps
      induction ps with
      | nil =>
        intro visiting st _
        rw [visitListF_nil]
        exact Option.some_ne_none _
      | cons p ps ihp =>
        intro visiting st h
        rw [visitListF_cons]
        cases hv : visitF g fuel visiting st p with
        | none => exact absurd hv (ih visiting st p h)
        | some r =>
          cases r with
          | error e => exact Option.some_ne_none _
          | ok st₂ => exact ihp visiting st₂ h
    intro visiting st id h
    rw [visitF_succ]
    by_cases h1 : id ∈ visiting
    · rw [if_pos h1]
      exact Option.some_ne_none _
    · rw [if_neg h1]
      by_cases h2 : id ∈ st.visited
      · rw [if_pos h2]
        exact Option.some_ne_none _
      · rw [if_neg h2]
        split
        · exact Option.some_ne_none _
        · rename_i node hn
          split
          · rename_i hl
            have hk : id ∈ mapKeys g.nodes := mem_of_mapGet_eq_some hn
            have hgap : gapTo g (id :: visiting) < fuel := by
              have := gapTo_cons_lt g hk h1
              omega
            exact absurd hl (ihList node.parents (id :: visiting) st hgap)
          · exact Option.some_ne_none _
          · exact Option.some_ne_none _

theorem gapTo_nil (g : DKG) : gapTo g [] = (mapKeys g.nodes).length := by
  unfold gapTo
  have : ∀ a ∈ mapKeys g.nodes, (decide (a ∉ ([] : List Str))) = true := by
    intro a _
    simp
  rw [List.filter_congr (q := fun _ => true) (by intro x hx; simp), List.filter_true]

theorem topoOuterF_ne_none (g : DKG) :
    ∀ ids st, topoOuterF g st ids ≠ none := by
  intro ids
  induction ids with
  | nil =>
    intro st
    exact Option.some_ne_none _
  | cons id ids ih =>
    intro st
    unfold topoOuterF
    by_cases h : id ∈ st.visited
    · rw [if_pos h]
      exact ih st
    · rw [if_neg h]
      have hfuel : gapTo g [] < topoFuel g := by
        rw [gapTo_nil]
        unfold topoFuel
        omega
      cases hv : visitF g (topoFuel g) [] st id with
      | none => exact absurd hv (visitF_ne_none g _ [] st id hfuel)
      | some r =>
        cases r with
        | error e => exact Option.some_ne_none _
        | ok st₂ => exact ih st₂

/-! ## Theorems: DFS state invariants -/

theorem mapGet_eq_some_of_mem_nodup {α : Type} {m : List (Str × α)}
    (hnd : (mapKeys m).Nodup) {k : Str} {v : α} (hm : (k, v) ∈ m) :
    mapGet m k = some v := by
  induction m with
  | nil => simp at hm
  | cons p rest ih =>
    obtain ⟨k₂, v₂⟩ := p
    have hnd' : (k₂ :: mapKeys rest).Nodup := hnd
    have hnotin : k₂ ∉ mapKeys rest := (List.nodup_cons.mp hnd').1
    have hnd₂ : (mapKeys rest).Nodup := (List.nodup_cons.mp hnd').2
    rcases List.mem_cons.mp hm with h | h
    · simp only [Prod.mk.injEq] at h
      obtain ⟨hk, hv⟩ := h
      subst hk
      subst hv
      simp [mapGet]
    · have hkmem : k ∈ mapKeys rest := by
        simp only [mapKeys, List.mem_map]
        exact ⟨(k, v), h, rfl⟩
      have hk₂ : k₂ ≠ k := fun hc => hnotin (hc ▸ hkmem)
      simp only [mapGet, if_neg hk₂]
      exact ih hnd₂ h

theorem resultOk_append (g : DKG) {l : List (Str × DKGNode)} (h : ResultOk g l)
    {id : Str} {node : DKGNode} (hget : mapGet g.nodes id = some node)
    (hnotin : id ∉ l.map Prod.fst) (hpar : ∀ p ∈ node.parents, p ∈ l.map Prod.fst) :
    ResultOk g (l ++ [(id, node)]) := by
  obtain ⟨hnd, hmem, hsplit⟩ := h
  refine ⟨?_, ?_, ?_⟩
  · rw [List.map_append]
    rw [List.nodup_append]
    exact ⟨hnd, by simp, by
      intro a ha hb
      simp at hb
      subst hb
      exact hnotin ha⟩
  · intro e he
    rcases List.mem_append.mp he with he | he
    · exact hmem e he
    · simp at he
      subst he
      exact hget
  · intro pre e suf hsuf p hp
    rcases List.eq_nil_or_concat suf with hnil | ⟨L, b, hLb⟩
    · subst hnil
      obtain ⟨hpre, hsing⟩ := List.append_inj' hsuf rfl
      have he : (id, node) = e := by simpa using hsing
      subst he
      rw [← hpre]
      exact hpar p hp
    · subst hLb
      have hsuf₂ : l ++ [(id, node)] = (pre ++ e :: L) ++ [b] := by
        simpa [List.concat_eq_append] using hsuf
      obtain ⟨hfront, _⟩ := List.append_inj' hsuf₂ rfl
      exact hsplit pre e L hfront p hp

theorem visitF_ok (g : DKG) :
    ∀ fuel visiting st id st', GoodState g st →
      visitF g fuel visiting st id = some (.ok st') →
      GoodState g st' ∧ (∀ k ∈ st.visited, k ∈ st'.visited) ∧
        (∀ k ∈ st'.visited, k ∈ st.visited ∨ k ∉ visiting) ∧ id ∈ st'.visited := by
  intro fuel
  induction fuel with
  | zero =>
    intro visiting st id st' _ heq
    exact absurd heq (by simp [visitF])
  | succ fuel ih =>
    have ihList : ∀ (ps : List Str) visiting st st', GoodState g st →
        visitListF g fuel visiting st ps = some (.ok st') →
        GoodState g st' ∧ (∀ k ∈ st.visited, k ∈ st'.visited) ∧
          (∀ k ∈ st'.visited, k ∈ st.visited ∨ k ∉ visiting) ∧
          ∀ p ∈ ps, p ∈ st'.visited := by
      intro ps
      induction ps with
      | nil =>
        intro visiting st st' hg heq
        rw [visitListF_nil] at heq
        have hst : st = st' := by simpa using heq
        subst hst
        exact ⟨hg, fun k hk => hk, fun k hk => Or.inl hk, by simp⟩
      | cons p ps ihp =>
        intro visiting st st' hg heq
        rw [visitListF_cons] at heq
        split at heq
        · exact absurd heq (by simp)
        · exact absurd heq (by simp)
        · rename_i st₂ hv
          obtain ⟨hg₂, mono₂, disj₂, hp₂⟩ := ih visiting st p st₂ hg hv
          obtain ⟨hg', mono', disj', hps'⟩ := ihp visiting st₂ st' hg₂ heq
          refine ⟨hg', fun k hk => mono' k (mono₂ k hk), ?_, ?_⟩
          · intro k hk
            rcases disj' k hk with hk₂ | hnv
            · exact disj₂ k hk₂
            · exact Or.inr hnv
          · intro q hq
            rcases List.mem_cons.mp hq with h | h
            · subst h
              exact mono' q hp₂
            · exact hps' q h
    intro visiting st id st' hg heq
    rw [visitF_succ] at heq
    by_cases h1 : id ∈ visiting
    · rw [if_pos h1] at heq
      exact absurd heq (by simp)
    rw [if_neg h1] at heq
    by_cases h2 : id ∈ st.visited
    · rw [if_pos h2] at heq
      have hst : st = st' := by simpa using heq
      subst hst
      exact ⟨hg, fun k hk => hk, fun k hk => Or.inl hk, h2⟩
    rw [if_neg h2] at heq
    split at heq
    · exact absurd heq (by simp)
    · rename_i node hn
      split at heq
      · exact absurd heq (by simp)
      · exact absurd heq (by simp)
      · rename_i st₂ hl
        have hst' : st' = ⟨id :: st₂.visited, st₂.result ++ [(id, node)]⟩ := by
          have := heq
          simp only [Option.some.injEq, Except.ok.injEq] at this
          exact this.symm
        obtain ⟨hg₂, mono₂, disj₂, hps⟩ := ihList node.parents (id :: visiting) st st₂ hg hl
        have hidnot₂ : id ∉ st₂.visited := by
          intro hmem
          rcases disj₂ id hmem with hin | hout
          · exact h2 hin
          · exact hout (List.mem_cons_self id visiting)
        have hvis₂ : st₂.visited = (st₂.result.map Prod.fst).reverse := hg₂.1
        have hidnotk : id ∉ st₂.result.map Prod.fst := by
          intro hmem
          apply hidnot₂
          rw [hvis₂]
          exact List.mem_reverse.mpr hmem

        have hgood' : GoodState g st' := by
          rw [hst']
          constructor
          · show id :: st₂.visited = ((st₂.result ++ [(id, node)]).map Prod.fst).reverse
            rw [List.map_append, List.reverse_append]
            simp [hvis₂]
          · exact resultOk_append g hg₂.2 hn hidnotk (by
              intro p hp
              have := hps p hp
              rw [hvis₂] at this
              exact List.mem_reverse.mp this)
        refine ⟨hgood', ?_, ?_, ?_⟩
        · intro k hk
          rw [hst']
          exact List.mem_cons_of_mem _ (mono₂ k hk)
        · intro k hk
          rw [hst'] at hk
          rcases List.mem_cons.mp hk with h | h
          · subst h
            exact Or.inr h1
          · rcases disj₂ k h with hin | hout
            · exact Or.inl hin
            · exact Or.inr fun hc => hout (List.mem_cons_of_mem _ hc)
        · rw [hst']
          exact List.mem_cons_self _ _

/-! ## Theorems: the DFS never reports an error on closed acyclic graphs -/

theorem chain_rev_transGen {r : Str → Str → Prop} :
    ∀ (l : List Str) (y x : Str), List.Chain' (fun a b => r b a) (y :: l) → x ∈ l →
      Relation.TransGen r x y := by
  intro l
  induction l with
  | nil =>
    intro y x _ hx
    simp at hx
  | cons c l₂ ih =>
    intro y x hchain hx
    have hcy : r c y := (List.chain'_cons.mp hchain).1
    have hchain₂ : List.Chain' (fun a b => r b a) (c :: l₂) := (List.chain'_cons.mp hchain).2
    rcases List.mem_cons.mp hx with h | h
    · subst h
      exact Relation.TransGen.single hcy
    · exact Relation.TransGen.tail (ih c x hchain₂ h) hcy

theorem visitF_no_error (g : DKG) (hc : ParentsClosed g) (ha : Acyclic g) :
    ∀ fuel visiting st id e,
      List.Chain' (fun a b => parentOf g b a) (id :: visiting) →
      id ∈ mapKeys g.nodes →
      visitF g fuel visiting st id ≠ some (.error e) := by
  intro fuel
  induction fuel with
  | zero =>
    intro visiting st id e _ _
    simp [visitF]
  | succ fuel ih =>
    have ihList : ∀ (ps : List Str) cur rest st e,
        List.Chain' (fun a b => parentOf g b a) (cur :: rest) →
        (∀ p ∈ ps, parentOf g cur p) →
        visitListF g fuel (cur :: rest) st ps ≠ some (.error e) := by
      intro ps
      induction ps with
      | nil =>
        intro cur rest st e _ _
        rw [visitListF_nil]
        simp
      | cons p ps ihp =>
        intro cur rest st e hchain hpar
        rw [visitListF_cons]
        have hpp : parentOf g cur p := hpar p (List.mem_cons_self _ _)
        have hchainp : List.Chain' (fun a b => parentOf g b a) (p :: cur :: rest) :=
          List.chain'_cons.mpr ⟨hpp, hchain⟩
        have hpk : p ∈ mapKeys g.nodes := by
          obtain ⟨n, hg₂, hmem⟩ := hpp
          exact hc cur n hg₂ p hmem
        cases hv : visitF g fuel (cur :: rest) st p with
        | none => simp
        | some r =>
          cases r with
          | error e₂ =>
            exact absurd hv (ih (cur :: rest) st p e₂ hchainp hpk)
          | ok st₂ =>
            exact ihp cur rest st₂ e hchain (fun q hq => hpar q (List.mem_cons_of_mem _ hq))
    intro visiting st id e hchain hk
    rw [visitF_succ]
    by_cases h1 : id ∈ visiting
    · rw [if_pos h1]
      exfalso
      exact ha id (chain_rev_transGen visiting id id hchain h1)
    rw [if_neg h1]
    by_cases h2 : id ∈ st.visited
    · rw [if_pos h2]
      simp
    rw [if_neg h2]
    split
    · rename_i hn
      exact absurd ((mapGet_eq_none_iff g.nodes id).mp hn) (by simpa using hk)
    · rename_i node hn
      have hpar : ∀ p ∈ node.parents, parentOf g id p := fun p hp => ⟨node, hn, hp⟩
      cases hl : visitListF g fuel (id :: visiting) st node.parents with
      | none => simp
      | some r =>
        cases r with
        | error e₂ =>
          exact absurd hl (ihList node.parents id visiting st e₂ hchain hpar)
        | ok st₂ => simp

/-! ## Theorems: outer loop of the sort -/

theorem goodState_init (g : DKG) : GoodState g ⟨[], []⟩ := by
  refine ⟨rfl, by simp, by simp, ?_⟩
  intro pre e suf hsuf p _
  have hlen := congrArg List.length hsuf
  simp at hlen
  omega

theorem topoOuterF_ok (g : DKG) :
    ∀ ids st st', GoodState g st → topoOuterF g st ids = some (.ok st') →
      GoodState g st' ∧ (∀ k ∈ st.visited, k ∈ st'.visited) ∧
        ∀ id ∈ ids, id ∈ st'.visited := by
  intro ids
  induction ids with
  | nil =>
    intro st st' hg heq
    have hst : st = st' := by
      unfold topoOuterF at heq
      simpa using heq
    subst hst
    exact ⟨hg, fun k hk => hk, by simp⟩
  | cons id ids ih =>
    intro st st' hg heq
    unfold topoOuterF at heq
    by_cases h : id ∈ st.visited
    · rw [if_pos h] at heq
      obtain ⟨hg', mono, hall⟩ := ih st st' hg heq
      refine ⟨hg', mono, ?_⟩
      intro i hi
      rcases List.mem_cons.mp hi with hi | hi
      · subst hi
        exact mono i h
      · exact hall i hi
    · rw [if_neg h] at heq
      split at heq
      · exact absurd heq (by simp)
      · exact absurd heq (by simp)
      · rename_i st₂ hv
        obtain ⟨hg₂, mono₂, _, hid₂⟩ := visitF_ok g _ [] st id st₂ hg hv
        obtain ⟨hg', mono', hall'⟩ := ih st₂ st' hg₂ heq
        refine ⟨hg', fun k hk => mono' k (mono₂ k hk), ?_⟩
        intro i hi
        rcases List.mem_cons.mp hi with hi | hi
        · subst hi
          exact mono' i hid₂
        · exact hall' i hi

theorem topoOuterF_no_error (g : DKG) (hc : ParentsClosed g) (ha : Acyclic g) :
    ∀ ids st e, (∀ id ∈ ids, id ∈ mapKeys g.nodes) →
      topoOuterF g st ids ≠ some (.error e) := by
  intro ids
  induction ids with
  | nil =>
    intro st e _
    unfold topoOuterF
    simp
  | cons id ids ih =>
    intro st e hids
    unfold topoOuterF
    by_cases h : id ∈ st.visited
    · rw [if_pos h]
      exact ih st e (fun i hi => hids i (List.mem_cons_of_mem _ hi))
    · rw [if_neg h]
      cases hv : visitF g (topoFuel g) [] st id with
      | none => simp
      | some r =>
        cases r with
        | error e₂ =>
          exact absurd hv (visitF_no_error g hc ha _ [] st id e₂
            (List.chain'_singleton id) (hids id (List.mem_cons_self _ _)))
        | ok st₂ =>
          exact ih st₂ e (fun i hi => hids i (List.mem_cons_of_mem _ hi))

theorem topologicalSortPairs_ok (g : DKG) (hc : ParentsClosed g) (ha : Acyclic g) :
    ∃ l, topologicalSortPairs g = .ok l ∧ ResultOk g l ∧
      ∀ id ∈ mapKeys g.nodes, id ∈ l.map Prod.fst := by
  unfold topologicalSortPairs
  cases h : topoOuterF g ⟨[], []⟩ (mapKeys g.nodes) with
  | none => exact absurd h (topoOuterF_ne_none g _ _)
  | some r =>
    cases r with
    | error e => exact absurd h (topoOuterF_no_error g hc ha _ _ e (fun id hi => hi))
    | ok st =>
      obtain ⟨hg', _, hall⟩ := topoOuterF_ok g _ _ st (goodState_init g) h
      refine ⟨st.result, rfl, hg'.2, ?_⟩
      intro id hi
      have := hall id hi
      rw [hg'.1] at this
      exact List.mem_reverse.mp this

theorem result_perm_nodes (g : DKG) (hnd : (mapKeys g.nodes).Nodup)
    {l : List (Str × DKGNode)} (hok : ResultOk g l)
    (hall : ∀ id ∈ mapKeys g.nodes, id ∈ l.map Prod.fst) :
    l.Perm g.nodes := by
  have hlnd : l.Nodup := List.Nodup.of_map _ hok.1
  have hgnd : g.nodes.Nodup := List.Nodup.of_map Prod.fst hnd
  rw [List.perm_ext_iff_of_nodup hlnd hgnd]
  intro a
  obtain ⟨k, v⟩ := a
  constructor
  · intro hmem
    exact mapGet_mem (hok.2.1 _ hmem)
  · intro hmem
    have hget : mapGet g.nodes k = some v := mapGet_eq_some_of_mem_nodup hnd hmem
    have hkk : k ∈ mapKeys g.nodes := mem_of_mapGet_eq_some hget
    obtain ⟨e, hmem₂, hfst⟩ := List.mem_map.mp (hall k hkk)
    obtain ⟨k₂, v₂⟩ := e
    have hk : k₂ = k := hfst
    subst hk
    have hget₂ : mapGet g.nodes k₂ = some v₂ := hok.2.1 _ hmem₂
    have hv : v₂ = v := by
      rw [hget] at hget₂
      exact (Option.some.inj hget₂).symm
    subst hv
    exact hmem₂

/-- C7: on a graph with distinct keys, all parent references present, and no
parent cycles, `topologicalSort` succeeds; its (id, node) result is a
permutation of the stored node entries — each node appears exactly once — and
every parent of an entry appears strictly earlier in the result than the
entry itself (parent index < child index for every edge). -/
theorem C7_topologicalSort_correct (g : DKG)
    (hnd : (mapKeys g.nodes).Nodup) (hc : ParentsClosed g) (ha : Acyclic g) :
    ∃ l : List (Str × DKGNode),
      topologicalSortPairs g = .ok l ∧
      topologicalSort g = .ok (l.map Prod.snd) ∧
      l.Perm g.nodes ∧
      ∀ pre e suf, l = pre ++ e :: suf → ∀ p ∈ e.2.parents, p ∈ pre.map Prod.fst := by
  obtain ⟨l, hok, hres, hall⟩ := topologicalSortPairs_ok g hc ha
  refine ⟨l, hok, ?_, result_perm_nodes g hnd hres hall, hres.2.2⟩
  unfold topologicalSort
  rw [hok]
  rfl

/-! ## Theorems: discharging sort hypotheses on concrete graphs -/

theorem parentsClosed_of_entries (g : DKG)
    (h : ∀ e ∈ g.nodes, ∀ p ∈ e.2.parents, p ∈ mapKeys g.nodes) : ParentsClosed g :=
  fun id n hget p hp => h (id, n) (mapGet_mem hget) p hp

theorem acyclic_of_rank (g : DKG) (rank : Str → Nat)
    (h : ∀ e ∈ g.nodes, ∀ p ∈ e.2.parents, rank p < rank e.1) : Acyclic g := by
  have hstep : ∀ c p, parentOf g c p → rank p < rank c := by
    intro c p hcp
    obtain ⟨n, hget, hp⟩ := hcp
    exact h (c, n) (mapGet_mem hget) p hp
  have htrans : ∀ a b, Relation.TransGen (parentOf g) a b → rank b < rank a := by
    intro a b hab
    induction hab with
    | single h₂ => exact hstep _ _ h₂
    | tail _ h₂ ih => exact lt_trans (hstep _ _ h₂) ih
  intro id hcyc
  exact lt_irrefl _ (htrans id id hcyc)

/-- Witness for C7 at a concrete two-node acyclic graph. -/
theorem C7_witness :
    (mapKeys c7G.nodes).Nodup ∧ ParentsClosed c7G ∧ Acyclic c7G ∧
      ∃ l : List (Str × DKGNode),
        topologicalSortPairs c7G = .ok l ∧
        topologicalSort c7G = .ok (l.map Prod.snd) ∧
        l.Perm c7G.nodes ∧
        ∀ pre e suf, l = pre ++ e :: suf → ∀ p ∈ e.2.parents, p ∈ pre.map Prod.fst := by
  have hnd : (mapKeys c7G.nodes).Nodup := by decide
  have hc : ParentsClosed c7G := parentsClosed_of_entries _ (by decide)
  have ha : Acyclic c7G := acyclic_of_rank _ (fun s => s.length) (by decide)
  exact ⟨hnd, hc, ha, C7_topologicalSort_correct c7G hnd hc ha⟩

/-! ## Theorems: behaviour of the sort on graphs with missing parents -/

theorem topologicalSortPairs_error_of_dangling (g : DKG) (hd : HasDanglingParent g) :
    ∃ e, topologicalSortPairs g = .error e := by
  obtain ⟨c, n, p, hget, hp, hmiss⟩ := hd
  unfold topologicalSortPairs
  cases h : topoOuterF g ⟨[], []⟩ (mapKeys g.nodes) with
  | none => exact absurd h (topoOuterF_ne_none g _ _)
  | some r =>
    cases r with
    | error e => exact ⟨e, rfl⟩
    | ok st =>
      exfalso
      obtain ⟨hg', _, hall⟩ := topoOuterF_ok g _ _ st (goodState_init g) h
      have hck : c ∈ mapKeys g.nodes := mem_of_mapGet_eq_some hget
      have hcl : c ∈ st.result.map Prod.fst := by
        have := hall c hck
        rw [hg'.1] at this
        exact List.mem_reverse.mp this
      obtain ⟨e, hmem, hfst⟩ := List.mem_map.mp hcl
      obtain ⟨c₂, v₂⟩ := e
      have hc₂ : c₂ = c := hfst
      subst hc₂
      have hv₂ : v₂ = n := by
        have h₂ := hg'.2.2.1 _ hmem
        rw [hget] at h₂
        exact (Option.some.inj h₂).symm
      subst hv₂
      obtain ⟨pre, suf, hsplit⟩ := List.append_of_mem hmem
      have hppre : p ∈ pre.map Prod.fst := hg'.2.2.2 pre _ suf hsplit p hp
      have hpl : p ∈ st.result.map Prod.fst := by
        rw [hsplit, List.map_append]
        exact List.mem_append.mpr (Or.inl hppre)
      obtain ⟨e₂, hmem₂, hfst₂⟩ := List.mem_map.mp hpl
      apply hmiss
      rw [← hfst₂]
      exact mem_of_mapGet_eq_some (hg'.2.2.1 _ hmem₂)

theorem visitF_no_cycle_error (g : DKG) (ha : Acyclic g) :
    ∀ fuel visiting st id x,
      List.Chain' (fun a b => parentOf g b a) (id :: visiting) →
      visitF g fuel visiting st id ≠ some (.error (.cycleDetected x)) := by
  intro fuel
  induction fuel with
  | zero =>
    intro visiting st id x _
    simp [visitF]
  | succ fuel ih =>
    have ihList : ∀ (ps : List Str) cur rest st x,
        List.Chain' (fun a b => parentOf g b a) (cur :: rest) →
        (∀ p ∈ ps, parentOf g cur p) →
        visitListF g fuel (cur :: rest) st ps ≠ some (.error (.cycleDetected x)) := by
      intro ps
      induction ps with
      | nil =>
        intro cur rest st x _ _
        rw [visitListF_nil]
        simp
      | cons p ps ihp =>
        intro cur rest st x hchain hpar
        rw [visitListF_cons]
        have hpp : parentOf g cur p := hpar p (List.mem_cons_self _ _)
        have hchainp : List.Chain' (fun a b => parentOf g b a) (p :: cur :: rest) :=
          List.chain'_cons.mpr ⟨hpp, hchain⟩
        cases hv : visitF g fuel (cur :: rest) st p with
        | none => simp
        | some r =>
          cases r with
          | error e₂ =>
            cases e₂ with
            | cycleDetected y => exact absurd hv (ih (cur :: rest) st p y hchainp)
            | nodeNotFound y => simp
          | ok st₂ =>
            exact ihp cur rest st₂ x hchain (fun q hq => hpar q (List.mem_cons_of_mem _ hq))
    intro visiting st id x hchain
    rw [visitF_succ]
    by_cases h1 : id ∈ visiting
    · rw [if_pos h1]
      exfalso
      exact ha id (chain_rev_transGen visiting id id hchain h1)
    rw [if_neg h1]
    by_cases h2 : id ∈ st.visited
    · rw [if_pos h2]
      simp
    rw [if_neg h2]
    split
    · simp
    · rename_i node hn
      have hpar : ∀ p ∈ node.parents, parentOf g id p := fun p hp => ⟨node, hn, hp⟩
      cases hl : visitListF g fuel (id :: visiting) st node.parents with
      | none => simp
      | some r =>
        cases r with
        | error e₂ =>
          cases e₂ with
          | cycleDetected y => exact absurd hl (ihList node.parents id visiting st y hchain hpar)
          | nodeNotFound y => simp
        | ok st₂ => simp

theorem visitF_notFound_inv (g : DKG) :
    ∀ fuel visiting st id x,
      visitF g fuel visiting st id = some (.error (.nodeNotFound x)) →
      mapGet g.nodes x = none ∧
        (x = id ∨ ∃ c nc, mapGet g.nodes c = some nc ∧ x ∈ nc.parents) := by
  intro fuel
  induction fuel with
  | zero =>
    intro visiting st id x heq
    exact absurd heq (by simp [visitF])
  | succ fuel ih =>
    have ihList : ∀ (ps : List Str) visiting st x cur ncur,
        mapGet g.nodes cur = some ncur → (∀ p ∈ ps, p ∈ ncur.parents) →
        visitListF g fuel visiting st ps = some (.error (.nodeNotFound x)) →
        mapGet g.nodes x = none ∧
          ∃ c nc, mapGet g.nodes c = some nc ∧ x ∈ nc.parents := by
      intro ps
      induction ps with
      | nil =>
        intro visiting st x cur ncur _ _ heq
        rw [visitListF_nil] at heq
        exact absurd heq (by simp)
      | cons p ps ihp =>
        intro visiting st x cur ncur hcur hps heq
        rw [visitListF_cons] at heq
        split at heq
        · exact absurd heq (by simp)
        · rename_i e₂ hv
          have he₂ : e₂ = .nodeNotFound x := by
            simpa using heq
          subst he₂
          obtain ⟨hnone, hsrc⟩ := ih visiting st p x hv
          refine ⟨hnone, ?_⟩
          rcases hsrc with hxp | hx
          · subst hxp
            exact ⟨cur, ncur, hcur, hps x (List.mem_cons_self _ _)⟩
          · exact hx
        · rename_i st₂ hv
          exact ihp visiting st₂ x cur ncur hcur
            (fun q hq => hps q (List.mem_cons_of_mem _ hq)) heq
    intro visiting st id x heq
    rw [visitF_succ] at heq
    by_cases h1 : id ∈ visiting
    · rw [if_pos h1] at heq
      exact absurd heq (by simp)
    rw [if_neg h1] at heq
    by_cases h2 : id ∈ st.visited
    · rw [if_pos h2] at heq
      exact absurd heq (by simp)
    rw [if_neg h2] at heq
    split at heq
    · rename_i hn
      have hx : id = x := by simpa using heq
      subst hx
      exact ⟨hn, Or.inl rfl⟩
    · rename_i node hn
      split at heq
      · exact absurd heq (by simp)
      · rename_i e₂ hl
        have he₂ : e₂ = .nodeNotFound x := by simpa using heq
        subst he₂
        obtain ⟨hnone, hsrc⟩ :=
          ihList node.parents (id :: visiting) st x id node hn (fun p hp => hp) hl
        exact ⟨hnone, Or.inr hsrc⟩
      · exact absurd heq (by simp)

theorem topoOuterF_err_src (g : DKG) :
    ∀ ids st e, topoOuterF g st ids = some (.error e) →
      ∃ id st₂, id ∈ ids ∧ visitF g (topoFuel g) [] st₂ id = some (.error e) := by
  intro ids
  induction ids with
  | nil =>
    intro st e heq
    unfold topoOuterF at heq
    exact absurd heq (by simp)
  | cons id ids ih =>
    intro st e heq
    unfold topoOuterF at heq
    by_cases h : id ∈ st.visited
    · rw [if_pos h] at heq
      obtain ⟨id₂, st₂, hmem, hv⟩ := ih st e heq
      exact ⟨id₂, st₂, List.mem_cons_of_mem _ hmem, hv⟩
    · rw [if_neg h] at heq
      split at heq
      · exact absurd heq (by simp)
      · rename_i e₂ hv
        have he₂ : e₂ = e := by simpa using heq
        subst he₂
        exact ⟨id, st, List.mem_cons_self _ _, hv⟩
      · rename_i st₂ hv
        obtain ⟨id₂, st₃, hmem, hv₂⟩ := ih st₂ e heq
        exact ⟨id₂, st₃, List.mem_cons_of_mem _ hmem, hv₂⟩

theorem issues_auditCausality (g : DKG) :
    (auditCausality g).issues = missingParentIssues g ++ tsIssues g ++ cycleIssues g := rfl

theorem mem_missingParentIssues (g : DKG) {c p : Str} {n : DKGNode}
    (hget : mapGet g.nodes c = some n) (hp : p ∈ n.parents)
    (hmiss : p ∉ mapKeys g.nodes) :
    Issue.missingParent c p ∈ (auditCausality g).issues := by
  have hmem : Issue.missingParent c p ∈ missingParentIssues g := by
    unfold missingParentIssues
    rw [List.mem_flatMap]
    refine ⟨(c, n), mapGet_mem hget, ?_⟩
    rw [List.mem_filterMap]
    refine ⟨p, hp, ?_⟩
    rw [if_neg]
    intro hc
    exact hmiss ((mapHas_iff g.nodes p).mp hc)
  rw [issues_auditCausality]
  exact List.mem_append.mpr (Or.inl (List.mem_append.mpr (Or.inl hmem)))

/-- C8 as stated is false in its error-contents part: the missing-parent
failure of `topologicalSort` names only the missing parent, not the
referencing child — the graphs `c8GA` (whose only node is `a`) and `c8GB`
(whose only node is `b`) both fail with the identical error value, so the
error cannot identify the child. -/
theorem C8_counterexample :
    topologicalSort c8GA = .error (.nodeNotFound ['p']) ∧
      topologicalSort c8GB = .error (.nodeNotFound ['p']) ∧
      mapKeys c8GA.nodes = [['a']] ∧ mapKeys c8GB.nodes = [['b']] := by
  refine ⟨?_, ?_, ?_, ?_⟩ <;> decide

/-- C8 amended: whenever some stored node references a parent id never added,
`topologicalSort` fails; if moreover the stored part of the graph is acyclic,
the error is a node-not-found error naming some missing parent id (the child
is not part of the error value); and the Auditor independently reports an
issue identifying both the child and the missing parent. -/
theorem C8_missing_parent_behaviour (g : DKG) (hd : HasDanglingParent g) :
    (∃ e, topologicalSort g = .error e) ∧
    (Acyclic g →
      ∃ pid, topologicalSort g = .error (.nodeNotFound pid) ∧
        pid ∉ mapKeys g.nodes ∧
        ∃ c nc, mapGet g.nodes c = some nc ∧ pid ∈ nc.parents) ∧
    ∀ c p n, mapGet g.nodes c = some n → p ∈ n.parents → p ∉ mapKeys g.nodes →
      Issue.missingParent c p ∈ (auditCausality g).issues := by
  refine ⟨?_, ?_, ?_⟩
  · obtain ⟨e, he⟩ := topologicalSortPairs_error_of_dangling g hd
    refine ⟨e, ?_⟩
    unfold topologicalSort
    rw [he]
    rfl
  · intro ha
    obtain ⟨e, he⟩ := topologicalSortPairs_error_of_dangling g hd
    have houter : topoOuterF g ⟨[], []⟩ (mapKeys g.nodes) = some (.error e) := by
      unfold topologicalSortPairs at he
      cases h : topoOuterF g ⟨[], []⟩ (mapKeys g.nodes) with
      | none => exact absurd h (topoOuterF_ne_none g _ _)
      | some r =>
        cases r with
        | error e₂ =>
          rw [h] at he
          have he₂ : e₂ = e := by simpa using he
          subst he₂
          rfl
        | ok st =>
          rw [h] at he
          exact absurd he (by simp)
    obtain ⟨id, st₂, hmem, hv⟩ := topoOuterF_err_src g _ _ e houter
    cases e with
    | cycleDetected x =>
      exact absurd hv (visitF_no_cycle_error g ha _ [] st₂ id x (List.chain'_singleton id))
    | nodeNotFound x =>
      obtain ⟨hnone, hsrc⟩ := visitF_notFound_inv g _ [] st₂ id x hv
      have hxk : x ∉ mapKeys g.nodes := (mapGet_eq_none_iff g.nodes x).mp hnone
      rcases hsrc with hxid | hx
      · subst hxid
        exact absurd hmem hxk
      · refine ⟨x, ?_, hxk, hx⟩
        unfold topologicalSort
        rw [he]
        rfl
  · intro c p n hget hp hmiss
    exact mem_missingParentIssues g hget hp hmiss

/-- Witness for the amended C8 at the concrete graph `c8GA`. -/
theorem C8_witness :
    HasDanglingParent c8GA ∧
      (∃ e, topologicalSort c8GA = .error e) ∧
      (∃ pid, topologicalSort c8GA = .error (.nodeNotFound pid) ∧
        pid ∉ mapKeys c8GA.nodes ∧
        ∃ c nc, mapGet c8GA.nodes c = some nc ∧ pid ∈ nc.parents) ∧
      ∀ c p n, mapGet c8GA.nodes c = some n → p ∈ n.parents → p ∉ mapKeys c8GA.nodes →
        Issue.missingParent c p ∈ (auditCausality c8GA).issues := by
  have ha : Acyclic c8GA :=
    acyclic_of_rank _ (fun s => if s = ['p'] then 0 else 1) (by decide)
  have hd : HasDanglingParent c8GA :=
    ⟨['a'], c8ChildA, ['p'], by decide, by decide, by decide⟩
  obtain ⟨h1, h2, h3⟩ := C8_missing_parent_behaviour c8GA hd
  exact ⟨hd, h1, h2 ha, h3⟩

/-! ## Theorems: audit issue counting (claim C3) -/

theorem count_missingParent_filterMap (g : DKG) (c p : Str) (ps : List Str) :
    (ps.filterMap (fun q =>
      if mapHas g.nodes q then none else some (Issue.missingParent c q))).count
        (Issue.missingParent c p) =
      if p ∈ mapKeys g.nodes then 0 else ps.count p := by
  induction ps with
  | nil => simp
  | cons q ps ih =>
    rw [List.filterMap_cons]
    by_cases hq : mapHas g.nodes q = true
    · rw [if_pos hq, ih]
      have hqk : q ∈ mapKeys g.nodes := (mapHas_iff _ _).mp hq
      by_cases hpk : p ∈ mapKeys g.nodes
      · rw [if_pos hpk, if_pos hpk]
      · have hqp : p ≠ q := fun hc => hpk (hc ▸ hqk)
        rw [if_neg hpk, if_neg hpk, List.count_cons]
        simp [hqp, Ne.symm hqp]
    · rw [if_neg hq, List.count_cons, ih]
      have hqk : q ∉ mapKeys g.nodes := fun hc => hq ((mapHas_iff _ _).mpr hc)
      by_cases hqp : q = p
      · subst hqp
        rw [if_neg hqk, if_neg hqk, List.count_cons]
        simp
      · have hqp₂ : p ≠ q := fun hc => hqp hc.symm
        by_cases hpk : p ∈ mapKeys g.nodes
        · rw [if_pos hpk, if_pos hpk]
          simp [hqp, hqp₂]
        · rw [if_neg hpk, if_neg hpk, List.count_cons]
          simp [hqp, hqp₂]

theorem count_missingParent_other (g : DKG) {c : Str} (p : Str) {c₂ : Str}
    (n₂ : DKGNode) (hne : c₂ ≠ c) :
    (n₂.parents.filterMap (fun q =>
      if mapHas g.nodes q then none else some (Issue.missingParent c₂ q))).count
        (Issue.missingParent c p) = 0 := by
  apply List.count_eq_zero.mpr
  intro hmem
  obtain ⟨q, _, hfq⟩ := List.mem_filterMap.mp hmem
  by_cases hq : mapHas g.nodes q = true
  · rw [if_pos hq] at hfq
    exact absurd hfq (by simp)
  · rw [if_neg hq] at hfq
    have := Option.some.inj hfq
    exact hne (by injection this)

theorem count_missingParentIssues_absent (g : DKG) (c p : Str) :
    ∀ entries : List (Str × DKGNode), c ∉ mapKeys entries →
      (entries.flatMap (fun e => e.2.parents.filterMap (fun q =>
        if mapHas g.nodes q then none else some (Issue.missingParent e.1 q)))).count
          (Issue.missingParent c p) = 0 := by
  intro entries
  induction entries with
  | nil => simp
  | cons e rest ih =>
    intro hc
    have hc₂ : c ∉ (e.1 :: mapKeys rest) := hc
    rw [List.flatMap_cons, List.count_append]
    have hne : e.1 ≠ c := fun h => hc₂ (h ▸ List.mem_cons_self _ _)
    rw [count_missingParent_other g p e.2 hne,
      ih (fun h => hc₂ (List.mem_cons_of_mem _ h))]

theorem count_missingParentIssues_present (g : DKG) (c : Str) (n : DKGNode) (p : Str) :
    ∀ entries : List (Str × DKGNode), (mapKeys entries).Nodup → (c, n) ∈ entries →
      (entries.flatMap (fun e => e.2.parents.filterMap (fun q =>
        if mapHas g.nodes q then none else some (Issue.missingParent e.1 q)))).count
          (Issue.missingParent c p) =
        if p ∈ mapKeys g.nodes then 0 else n.parents.count p := by
  intro entries
  induction entries with
  | nil =>
    intro _ hmem
    simp at hmem
  | cons e rest ih =>
    intro hnd hmem
    have hnd' : (e.1 :: mapKeys rest).Nodup := hnd
    have hheadout : e.1 ∉ mapKeys rest := (List.nodup_cons.mp hnd').1
    have hndrest : (mapKeys rest).Nodup := (List.nodup_cons.mp hnd').2
    rw [List.flatMap_cons, List.count_append]
    rcases List.mem_cons.mp hmem with hh | hh
    · have he1 : e.1 = c := by rw [← hh]
      have he2 : e.2 = n := by rw [← hh]
      rw [he1, he2, count_missingParent_filterMap g c p n.parents]
      rw [count_missingParentIssues_absent g c p rest (he1 ▸ hheadout)]
      omega
    · have hcin : c ∈ mapKeys rest := by
        simp only [mapKeys, List.mem_map]
        exact ⟨(c, n), hh, rfl⟩
      have hne : e.1 ≠ c := fun h => hheadout (h ▸ hcin)
      rw [count_missingParent_other g p e.2 hne]
      rw [ih hndrest hh]
      omega

theorem count_missingParentIssues (g : DKG) (hnd : (mapKeys g.nodes).Nodup)
    {c : Str} {n : DKGNode} (p : Str) (hget : mapGet g.nodes c = some n) :
    (missingParentIssues g).count (Issue.missingParent c p) =
      if p ∈ mapKeys g.nodes then 0 else n.parents.count p :=
  count_missingParentIssues_present g c n p g.nodes hnd (mapGet_mem hget)

theorem count_ts_filterMap (g : DKG) (c : Str) (cts : Int) {p : Str} {pn : DKGNode}
    (hp : mapGet g.nodes p = some pn) (ps : List Str) :
    (ps.filterMap (fun q =>
      match mapGet g.nodes q with
      | some parent => if cts < parent.ts then
          some (Issue.tsViolation c cts q parent.ts) else none
      | none => none)).count (Issue.tsViolation c cts p pn.ts) =
      if cts < pn.ts then ps.count p else 0 := by
  induction ps with
  | nil => simp
  | cons q ps ih =>
    simp only [List.filterMap_cons]
    cases hq : mapGet g.nodes q with
    | none =>
      have hqp : q ≠ p := by
        intro hc
        rw [hc, hp] at hq
        exact absurd hq (by simp)
      simp only [hq]
      rw [ih, List.count_cons]
      by_cases hlt : cts < pn.ts
      · rw [if_pos hlt, if_pos hlt]
        simp [hqp]
      · rw [if_neg hlt, if_neg hlt]
    | some qn =>
      simp only [hq]
      by_cases hqp : q = p
      · subst hqp
        rw [hp] at hq
        have hqn : qn = pn := (Option.some.inj hq).symm
        subst hqn
        by_cases hlt : cts < qn.ts
        · rw [if_pos hlt, List.count_cons, ih, if_pos hlt, if_pos hlt, List.count_cons]
          simp
        · rw [if_neg hlt, ih, if_neg hlt, if_neg hlt]
      · have hne : Issue.tsViolation c cts p pn.ts ≠ Issue.tsViolation c cts q qn.ts := by
          intro hc
          injection hc with h₁ h₂ h₃ h₄
          exact hqp h₃.symm
        by_cases hlt : cts < qn.ts
        · rw [if_pos hlt, List.count_cons, ih]
          by_cases hlt₂ : cts < pn.ts
          · rw [if_pos hlt₂, if_pos hlt₂, List.count_cons]
            simp [hqp]
          · rw [if_neg hlt₂, if_neg hlt₂]
            simp [hqp]
        · rw [if_neg hlt, ih]
          by_cases hlt₂ : cts < pn.ts
          · rw [if_pos hlt₂, if_pos hlt₂, List.count_cons]
            simp [hqp]
          · rw [if_neg hlt₂, if_neg hlt₂]

theorem count_ts_other (g : DKG) {c : Str} (cts : Int) (p : Str) (pts : Int)
    {c₂ : Str} (n₂ : DKGNode) (hne : ¬(c₂ = c ∧ n₂.ts = cts)) :
    (n₂.parents.filterMap (fun q =>
      match mapGet g.nodes q with
      | some parent => if n₂.ts < parent.ts then
          some (Issue.tsViolation c₂ n₂.ts q parent.ts) else none
      | none => none)).count (Issue.tsViolation c cts p pts) = 0 := by
  apply List.count_eq_zero.mpr
  intro hmem
  obtain ⟨q, _, hfq⟩ := List.mem_filterMap.mp hmem
  cases hq : mapGet g.nodes q with
  | none =>
    simp only [hq] at hfq
    exact absurd hfq (by simp)
  | some qn =>
    simp only [hq] at hfq
    by_cases hlt : n₂.ts < qn.ts
    · rw [if_pos hlt] at hfq
      have := Option.some.inj hfq
      injection this with h₁ h₂ h₃ h₄
      exact hne ⟨h₁, h₂⟩
    · rw [if_neg hlt] at hfq
      exact absurd hfq (by simp)

theorem count_tsIssues_absent (g : DKG) (c : Str) (cts : Int) (p : Str) (pts : Int) :
    ∀ entries : List (Str × DKGNode), c ∉ mapKeys entries →
      (entries.flatMap (fun e => e.2.parents.filterMap (fun q =>
        match mapGet g.nodes q with
        | some parent => if e.2.ts < parent.ts then
            some (Issue.tsViolation e.1 e.2.ts q parent.ts) else none
        | none => none))).count (Issue.tsViolation c cts p pts) = 0 := by
  intro entries
  induction entries with
  | nil => simp
  | cons e rest ih =>
    intro hc
    have hc₂ : c ∉ (e.1 :: mapKeys rest) := hc
    rw [List.flatMap_cons, List.count_append]
    have hne : e.1 ≠ c := fun h => hc₂ (h ▸ List.mem_cons_self _ _)
    rw [count_ts_other g cts p pts e.2 (fun h => hne h.1),
      ih (fun h => hc₂ (List.mem_cons_of_mem _ h))]

theorem count_tsIssues_present (g : DKG) (c : Str) (n : DKGNode) {p : Str} {pn : DKGNode}
    (hp : mapGet g.nodes p = some pn) :
    ∀ entries : List (Str × DKGNode), (mapKeys entries).Nodup → (c, n) ∈ entries →
      (entries.flatMap (fun e => e.2.parents.filterMap (fun q =>
        match mapGet g.nodes q with
        | some parent => if e.2.ts < parent.ts then
            some (Issue.tsViolation e.1 e.2.ts q parent.ts) else none
        | none => none))).count (Issue.tsViolation c n.ts p pn.ts) =
        if n.ts < pn.ts then n.parents.count p else 0 := by
  intro entries
  induction entries with
  | nil =>
    intro _ hmem
    simp at hmem
  | cons e rest ih =>
    intro hnd hmem
    have hnd' : (e.1 :: mapKeys rest).Nodup := hnd
    have hheadout : e.1 ∉ mapKeys rest := (List.nodup_cons.mp hnd').1
    have hndrest : (mapKeys rest).Nodup := (List.nodup_cons.mp hnd').2
    rw [List.flatMap_cons, List.count_append]
    rcases List.mem_cons.mp hmem with hh | hh
    · have he1 : e.1 = c := by rw [← hh]
      have he2 : e.2 = n := by rw [← hh]
      rw [he1, he2, count_ts_filterMap g c n.ts hp n.parents]
      rw [count_tsIssues_absent g c n.ts p pn.ts rest (he1 ▸ hheadout)]
      omega
    · have hcin : c ∈ mapKeys rest := by
        simp only [mapKeys, List.mem_map]
        exact ⟨(c, n), hh, rfl⟩
      have hne : e.1 ≠ c := fun h => hheadout (h ▸ hcin)
      rw [count_ts_other g n.ts p pn.ts e.2 (fun h => hne h.1)]
      rw [ih hndrest hh]
      omega

theorem count_tsIssues (g : DKG) (hnd : (mapKeys g.nodes).Nodup)
    {c : Str} {n : DKGNode} {p : Str} {pn : DKGNode}
    (hget : mapGet g.nodes c = some n) (hp : mapGet g.nodes p = some pn) :
    (tsIssues g).count (Issue.tsViolation c n.ts p pn.ts) =
      if n.ts < pn.ts then n.parents.count p else 0 :=
  count_tsIssues_present g c n hp g.nodes hnd (mapGet_mem hget)

theorem mem_missingParentIssues_shape (g : DKG) {x : Issue}
    (hx : x ∈ missingParentIssues g) :
    ∃ c n p, (c, n) ∈ g.nodes ∧ p ∈ n.parents ∧ p ∉ mapKeys g.nodes ∧
      x = .missingParent c p := by
  unfold missingParentIssues at hx
  obtain ⟨e, he, hx₂⟩ := List.mem_flatMap.mp hx
  obtain ⟨q, hq, hfq⟩ := List.mem_filterMap.mp hx₂
  by_cases hhas : mapHas g.nodes q = true
  · rw [if_pos hhas] at hfq
    exact absurd hfq (by simp)
  · rw [if_neg hhas] at hfq
    refine ⟨e.1, e.2, q, he, hq, fun hc => hhas ((mapHas_iff _ _).mpr hc), ?_⟩
    exact (Option.some.inj hfq).symm

theorem mem_tsIssues_shape (g : DKG) {x : Issue} (hx : x ∈ tsIssues g) :
    ∃ c n p pn, (c, n) ∈ g.nodes ∧ p ∈ n.parents ∧ mapGet g.nodes p = some pn ∧
      n.ts < pn.ts ∧ x = .tsViolation c n.ts p pn.ts := by
  unfold tsIssues at hx
  obtain ⟨e, he, hx₂⟩ := List.mem_flatMap.mp hx
  obtain ⟨q, hq, hfq⟩ := List.mem_filterMap.mp hx₂
  cases hget : mapGet g.nodes q with
  | none =>
    simp only [hget] at hfq
    exact absurd hfq (by simp)
  | some qn =>
    simp only [hget] at hfq
    by_cases hlt : e.2.ts < qn.ts
    · rw [if_pos hlt] at hfq
      refine ⟨e.1, e.2, q, qn, he, hq, hget, hlt, (Option.some.inj hfq).symm⟩
    · rw [if_neg hlt] at hfq
      exact absurd hfq (by simp)

theorem mem_cycleIssues_iff (g : DKG) (e : SortErr) :
    Issue.cycleIssue e ∈ cycleIssues g ↔ topologicalSort g = .error e := by
  unfold cycleIssues
  cases h : topologicalSort g with
  | error e₂ =>
    constructor
    · intro hmem
      have : e = e₂ := by simpa using hmem
      rw [this]
    · intro heq
      have : e₂ = e := by simpa using heq
      rw [this]
      exact List.mem_cons_self _ _
  | ok l =>
    constructor
    · intro hmem
      simp at hmem
    · intro heq
      exact absurd heq (by simp)

theorem count_missingParent_tsIssues (g : DKG) (c p : Str) :
    (tsIssues g).count (Issue.missingParent c p) = 0 := by
  apply List.count_eq_zero.mpr
  intro hmem
  obtain ⟨_, _, _, _, _, _, _, _, hx⟩ := mem_tsIssues_shape g hmem
  exact absurd hx (by simp)

theorem count_missingParent_cycleIssues (g : DKG) (c p : Str) :
    (cycleIssues g).count (Issue.missingParent c p) = 0 := by
  apply List.count_eq_zero.mpr
  intro hmem
  unfold cycleIssues at hmem
  cases h : topologicalSort g with
  | error e₂ =>
    rw [h] at hmem
    simp at hmem
  | ok l =>
    rw [h] at hmem
    simp at hmem

theorem count_ts_missingParentIssues (g : DKG) (c : Str) (ct : Int) (p : Str) (pt : Int) :
    (missingParentIssues g).count (Issue.tsViolation c ct p pt) = 0 := by
  apply List.count_eq_zero.mpr
  intro hmem
  obtain ⟨_, _, _, _, _, _, hx⟩ := mem_missingParentIssues_shape g hmem
  exact absurd hx (by simp)

theorem count_ts_cycleIssues (g : DKG) (c : Str) (ct : Int) (p : Str) (pt : Int) :
    (cycleIssues g).count (Issue.tsViolation c ct p pt) = 0 := by
  apply List.count_eq_zero.mpr
  intro hmem
  unfold cycleIssues at hmem
  cases h : topologicalSort g with
  | error e₂ =>
    rw [h] at hmem
    simp at hmem
  | ok l =>
    rw [h] at hmem
    simp at hmem

/-- C3 as stated is false in its acyclicity-issue part: on the graph `c3G`,
whose only node references a missing parent, the topological sort fails with
a node-not-found error (not a cycle error), yet the audit still records an
entry for it — the code pushes an issue on any sort failure. The issue list
enumerated by the claim (`auditIssuesClaimed`) has one entry here; the code
produces two. -/
theorem C3_counterexample :
    (auditCausality c3G).issues ≠ auditIssuesClaimed c3G ∧
      (auditCausality c3G).issues.length = 2 ∧
      (auditIssuesClaimed c3G).length = 1 ∧
      topologicalSort c3G = .error (.nodeNotFound ['q']) := by
  refine ⟨?_, ?_, ?_, ?_⟩ <;> decide

/-- C3 amended: the audit is a total function (it never throws and leaves the
graph untouched); on a graph with distinct keys its issue list contains, for
every stored node `c` and parent reference `p`, one missing-parent entry per
reference to an absent parent and one timestamp entry per reference whose
stored parent has a strictly larger timestamp; it contains one entry for the
sort failure whenever `topologicalSort` fails with any error (cycle or
node-not-found — not only cycle errors as the claim words it); `passed` holds
exactly when the issue list is empty, and the counts report the stored sizes. -/
theorem C3_audit_characterization (g : DKG) (hnd : (mapKeys g.nodes).Nodup) :
    ((auditCausality g).passed = true ↔ (auditCausality g).issues = []) ∧
    (∀ c n p, mapGet g.nodes c = some n →
      (auditCausality g).issues.count (Issue.missingParent c p) =
        if p ∈ mapKeys g.nodes then 0 else n.parents.count p) ∧
    (∀ c p, Issue.missingParent c p ∈ (auditCausality g).issues →
      ∃ n, mapGet g.nodes c = some n ∧ p ∈ n.parents ∧ p ∉ mapKeys g.nodes) ∧
    (∀ c n p pn, mapGet g.nodes c = some n → mapGet g.nodes p = some pn →
      (auditCausality g).issues.count (Issue.tsViolation c n.ts p pn.ts) =
        if n.ts < pn.ts then n.parents.count p else 0) ∧
    (∀ e, Issue.cycleIssue e ∈ (auditCausality g).issues ↔ topologicalSort g = .error e) ∧
    (auditCausality g).nodeCount = g.nodes.length ∧
    (auditCausality g).edgeCount = g.edgeCount ∧
    (auditCausality g).rootNodeCount = g.rootNodes.length := by
  refine ⟨List.isEmpty_iff, ?_, ?_, ?_, ?_, rfl, rfl, rfl⟩
  · intro c n p hget
    rw [issues_auditCausality, List.count_append, List.count_append,
      count_missingParentIssues g hnd p hget, count_missingParent_tsIssues,
      count_missingParent_cycleIssues]
    omega
  · intro c p hmem
    rw [issues_auditCausality] at hmem
    rcases List.mem_append.mp hmem with hmem | hmem
    · rcases List.mem_append.mp hmem with hmem | hmem
      · obtain ⟨c₂, n₂, p₂, hin, hp₂, hmiss, hx⟩ := mem_missingParentIssues_shape g hmem
        have hc : c₂ = c ∧ p₂ = p := by
          constructor <;> injection hx.symm
        obtain ⟨hc₂, hp₃⟩ := hc
        subst hc₂
        subst hp₃
        exact ⟨n₂, mapGet_eq_some_of_mem_nodup hnd hin, hp₂, hmiss⟩
      · obtain ⟨_, _, _, _, _, _, _, _, hx⟩ := mem_tsIssues_shape g hmem
        exact absurd hx (by simp)
    · exfalso
      unfold cycleIssues at hmem
      cases h : topologicalSort g with
      | error e₂ =>
        rw [h] at hmem
        simp at hmem
      | ok l =>
        rw [h] at hmem
        simp at hmem
  · intro c n p pn hget hp
    rw [issues_auditCausality, List.count_append, List.count_append,
      count_tsIssues g hnd hget hp, count_ts_missingParentIssues, count_ts_cycleIssues]
    omega
  · intro e
    rw [issues_auditCausality]
    constructor
    · intro hmem
      rcases List.mem_append.mp hmem with hmem | hmem
      · rcases List.mem_append.mp hmem with hmem | hmem
        · obtain ⟨_, _, _, _, _, _, hx⟩ := mem_missingParentIssues_shape g hmem
          exact absurd hx (by simp)
        · obtain ⟨_, _, _, _, _, _, _, _, hx⟩ := mem_tsIssues_shape g hmem
          exact absurd hx (by simp)
      · exact (mem_cycleIssues_iff g e).mp hmem
    · intro heq
      exact List.mem_append.mpr (Or.inr ((mem_cycleIssues_iff g e).mpr heq))

/-- Witness for the amended C3 at the concrete graph `c3G`. -/
theorem C3_witness :
    (mapKeys c3G.nodes).Nodup ∧
      ((auditCausality c3G).passed = true ↔ (auditCausality c3G).issues = []) ∧
      ∀ c n p, mapGet c3G.nodes c = some n →
        (auditCausality c3G).issues.count (Issue.missingParent c p) =
          if p ∈ mapKeys c3G.nodes then 0 else n.parents.count p :=
  ⟨by decide, (C3_audit_characterization c3G (by decide)).1,
    (C3_audit_characterization c3G (by decide)).2.1⟩

/-! ## Theorems: `addNode` edge behaviour (claim C10) -/

theorem count_eq_one_str (a : Str) : ∀ l : List Str, l.Nodup → a ∈ l → l.count a = 1 := by
  intro l
  induction l with
  | nil =>
    intro _ h
    simp at h
  | cons b l ih =>
    intro hnd hmem
    rcases List.mem_cons.mp hmem with h | h
    · subst h
      rw [List.count_cons_self, List.count_eq_zero_of_not_mem (List.nodup_cons.mp hnd).1]
    · rw [List.count_cons_of_ne, ih (List.nodup_cons.mp hnd).2 h]
      intro hc
      subst hc
      exact (List.nodup_cons.mp hnd).1 h

theorem getChildren_addEdges (id : Str) :
    ∀ (ps : List Str) (edges : List (Str × List Str)) (p : Str),
      (mapGet (addEdges edges id ps) p).getD [] =
        (mapGet edges p).getD [] ++ List.replicate (ps.count p) id := by
  intro ps
  induction ps with
  | nil =>
    intro edges p
    simp [addEdges]
  | cons q ps ih =>
    intro edges p
    unfold addEdges
    rw [ih]
    by_cases hqp : q = p
    · subst hqp
      rw [mapGet_mapSet_self]
      rw [List.count_cons_self, List.replicate_succ]
      simp
    · rw [mapGet_mapSet_ne _ _ _ _ hqp]
      rw [List.count_cons_of_ne (fun hc => hqp hc.symm)]

theorem sumLens_mapSet_bump (k : Str) (xs : List Str) :
    ∀ m : List (Str × List Str),
      ((mapSet m k ((mapGet m k).getD [] ++ xs)).map (fun e => e.2.length)).sum =
        (m.map (fun e => e.2.length)).sum + xs.length := by
  intro m
  induction m with
  | nil => simp [mapSet, mapGet]
  | cons e rest ih =>
    obtain ⟨k₂, v₂⟩ := e
    by_cases hk : k₂ = k
    · subst hk
      have hget : mapGet ((k₂, v₂) :: rest) k₂ = some v₂ := by
        unfold mapGet
        rw [if_pos rfl]
      rw [hget]
      simp only [Option.getD_some]
      have hset : mapSet ((k₂, v₂) :: rest) k₂ (v₂ ++ xs) = (k₂, v₂ ++ xs) :: rest := by
        unfold mapSet
        rw [if_pos rfl]
      rw [hset]
      simp only [List.map_cons, List.sum_cons, List.length_append]
      omega
    · have hget : mapGet ((k₂, v₂) :: rest) k = mapGet rest k := by
        simp only [mapGet, if_neg hk]
      have hset : ∀ v, mapSet ((k₂, v₂) :: rest) k v = (k₂, v₂) :: mapSet rest k v := by
        intro v
        simp only [mapSet, if_neg hk]
      rw [hget, hset]
      simp only [List.map_cons, List.sum_cons, ih]
      omega

theorem sumLens_addEdges (id : Str) :
    ∀ (ps : List Str) (edges : List (Str × List Str)),
      ((addEdges edges id ps).map (fun e => e.2.length)).sum =
        (edges.map (fun e => e.2.length)).sum + ps.length := by
  intro ps
  induction ps with
  | nil =>
    intro edges
    simp [addEdges]
  | cons q ps ih =>
    intro edges
    unfold addEdges
    rw [ih, sumLens_mapSet_bump]
    simp
    omega

/-- C10: calling `addNode` twice with nodes carrying the same id and the same
parent list leaves exactly one entry for that id in the node map, while each
call appends the id to every parent's child list — each parent reference
contributes two copies after the two calls, and the audit's `edgeCount` grows
by twice the parent count — whereas a parentless node added twice is
registered only once in `rootNodes`. -/
theorem C10_addNode_not_idempotent (g : DKG) (n₁ n₂ : DKGNode)
    (hid : n₂.xmtpMsgId = n₁.xmtpMsgId) (hpar : n₂.parents = n₁.parents)
    (hnd : (mapKeys g.nodes).Nodup) :
    ((mapKeys (((g.addNode n₁ none).1.addNode n₂ none).1).nodes).count n₁.xmtpMsgId = 1) ∧
    (∀ p ∈ n₁.parents,
      (DKG.getChildren (((g.addNode n₁ none).1.addNode n₂ none).1) p).count n₁.xmtpMsgId =
        (DKG.getChildren g p).count n₁.xmtpMsgId + 2 * n₁.parents.count p) ∧
    (DKG.edgeCount (((g.addNode n₁ none).1.addNode n₂ none).1) =
      DKG.edgeCount g + 2 * n₁.parents.length) ∧
    (n₁.parents = [] → n₁.xmtpMsgId ∉ g.rootNodes →
      (((g.addNode n₁ none).1.addNode n₂ none).1).rootNodes.count n₁.xmtpMsgId = 1) := by
  have hg₁nodes : ((g.addNode n₁ none).1).nodes = mapSet g.nodes n₁.xmtpMsgId n₁ := rfl
  have hg₂nodes : (((g.addNode n₁ none).1.addNode n₂ none).1).nodes =
      mapSet (mapSet g.nodes n₁.xmtpMsgId n₁) n₂.xmtpMsgId n₂ := rfl
  have hg₂edges : (((g.addNode n₁ none).1.addNode n₂ none).1).edges =
      addEdges (addEdges g.edges n₁.xmtpMsgId n₁.parents) n₂.xmtpMsgId n₂.parents := rfl
  refine ⟨?_, ?_, ?_, ?_⟩
  · rw [hg₂nodes, hid]
    have hnd₁ : (mapKeys (mapSet g.nodes n₁.xmtpMsgId n₁)).Nodup :=
      mapKeys_nodup_mapSet _ _ hnd
    have hnd₂ : (mapKeys (mapSet (mapSet g.nodes n₁.xmtpMsgId n₁) n₁.xmtpMsgId n₂)).Nodup :=
      mapKeys_nodup_mapSet _ _ hnd₁
    apply count_eq_one_str _ _ hnd₂
    exact (mapGet_isSome_iff _ _).mp (by rw [mapGet_mapSet_self]; rfl)
  · intro p hp
    have hchild : DKG.getChildren (((g.addNode n₁ none).1.addNode n₂ none).1) p =
        DKG.getChildren g p ++ List.replicate (n₁.parents.count p) n₁.xmtpMsgId ++
          List.replicate (n₁.parents.count p) n₁.xmtpMsgId := by
      show (mapGet (((g.addNode n₁ none).1.addNode n₂ none).1).edges p).getD [] = _
      rw [hg₂edges, hid, hpar, getChildren_addEdges, getChildren_addEdges]
      rfl
    rw [hchild, List.count_append, List.count_append, List.count_replicate_self]
    omega
  · have hsum : DKG.edgeCount (((g.addNode n₁ none).1.addNode n₂ none).1) =
        DKG.edgeCount g + n₁.parents.length + n₁.parents.length := by
      show ((((g.addNode n₁ none).1.addNode n₂ none).1).edges.map
        (fun e => e.2.length)).sum = _
      rw [hg₂edges, hpar, sumLens_addEdges, sumLens_addEdges]
      rfl
    rw [hsum]
    omega
  · intro hnil hout
    have hnil₂ : n₂.parents = [] := by rw [hpar, hnil]
    have hroots₁ : ((g.addNode n₁ none).1).rootNodes = g.rootNodes ++ [n₁.xmtpMsgId] := by
      show (if n₁.parents = [] then
          if n₁.xmtpMsgId ∈ g.rootNodes then g.rootNodes else g.rootNodes ++ [n₁.xmtpMsgId]
        else g.rootNodes) = _
      rw [if_pos hnil, if_neg hout]
    have hroots₂ : (((g.addNode n₁ none).1.addNode n₂ none).1).rootNodes =
        ((g.addNode n₁ none).1).rootNodes := by
      show (if n₂.parents = [] then
          if n₂.xmtpMsgId ∈ ((g.addNode n₁ none).1).rootNodes then
            ((g.addNode n₁ none).1).rootNodes
          else ((g.addNode n₁ none).1).rootNodes ++ [n₂.xmtpMsgId]
        else ((g.addNode n₁ none).1).rootNodes) = _
      rw [if_pos hnil₂, if_pos]
      rw [hid, hroots₁]
      exact List.mem_append.mpr (Or.inr (List.mem_cons_self _ _))
    rw [hroots₂, hroots₁, List.count_append]
    rw [List.count_eq_zero_of_not_mem hout]
    simp

/-- Witness for C10 at a concrete graph: the root `r` plus `c10Node` added
twice. -/
theorem C10_witness :
    (mapKeys (DKG.ofNodes [wRoot]).nodes).Nodup ∧
      ((mapKeys ((((DKG.ofNodes [wRoot]).addNode c10Node none).1.addNode
        c10Node none).1).nodes).count c10Node.xmtpMsgId = 1) ∧
      ∀ p ∈ c10Node.parents,
        (DKG.getChildren ((((DKG.ofNodes [wRoot]).addNode c10Node none).1.addNode
          c10Node none).1) p).count c10Node.xmtpMsgId =
          (DKG.getChildren (DKG.ofNodes [wRoot]) p).count c10Node.xmtpMsgId +
            2 * c10Node.parents.count p := by
  have h := C10_addNode_not_idempotent (DKG.ofNodes [wRoot]) c10Node c10Node
    rfl rfl (by decide)
  exact ⟨by decide, h.1, h.2.1⟩

/-! ## Theorems: descendant counting (claim C4) -/

theorem foldl_countFoldStep_none (v : List Str → Str → Option (Nat × List Str))
    (cs : List Str) : cs.foldl (countFoldStep v) none = none := by
  induction cs with
  | nil => rfl
  | cons c cs ih => exact ih

theorem countF_spec (g : DKG) :
    ∀ fuel visited id n visited', countF g fuel visited id = some (n, visited') →
      ∃ new : List Str, visited' = new ++ visited ∧ new.Nodup ∧
        (∀ k ∈ new, k ∉ visited) ∧
        (∀ k ∈ new, Reach g id k) ∧
        (id ∈ visited → new = []) ∧ (id ∉ visited → id ∈ new) ∧
        n = (new.map (fun v => (DKG.getChildren g v).length)).sum ∧
        (∀ k ∈ new, ∀ c ∈ DKG.getChildren g k, c ∈ visited') := by
  intro fuel
  induction fuel with
  | zero =>
    intro visited id n visited' heq
    exact absurd heq (by simp [countF])
  | succ fuel ih =>
    have ihFold : ∀ (cs : List Str) (startN : Nat) (visited0 : List Str) n visited',
        cs.foldl (countFoldStep (countF g fuel)) (some (startN, visited0)) =
          some (n, visited') →
        ∃ new : List Str, visited' = new ++ visited0 ∧ new.Nodup ∧
          (∀ k ∈ new, k ∉ visited0) ∧
          (∀ k ∈ new, ∃ c ∈ cs, Reach g c k) ∧
          (∀ c ∈ cs, c ∈ visited') ∧
          n = startN + (new.map (fun v => (DKG.getChildren g v).length)).sum ∧
          (∀ k ∈ new, ∀ c ∈ DKG.getChildren g k, c ∈ visited') := by
      intro cs
      induction cs with
      | nil =>
        intro startN visited0 n visited' heq
        simp only [List.foldl_nil, Option.some.injEq, Prod.mk.injEq] at heq
        obtain ⟨hn, hv⟩ := heq
        subst hn
        subst hv
        exact ⟨[], by simp, by simp, by simp, by simp, by simp, by simp, by simp⟩
      | cons c cs ihcs =>
        intro startN visited0 n visited' heq
        rw [List.foldl_cons] at heq
        cases hc : countF g fuel visited0 c with
        | none =>
          rw [show countFoldStep (countF g fuel) (some (startN, visited0)) c = none by
            simp [countFoldStep, hc]] at heq
          rw [foldl_countFoldStep_none] at heq
          exact absurd heq (by simp)
        | some r =>
          obtain ⟨m, v₂⟩ := r
          rw [show countFoldStep (countF g fuel) (some (startN, visited0)) c =
            some (startN + m, v₂) by simp [countFoldStep, hc]] at heq
          obtain ⟨new₂, hv', hnd₂, hdisj₂, hreach₂, hcs₂, hn₂, hclos₂⟩ :=
            ihcs (startN + m) v₂ n visited' heq
          obtain ⟨new₁, hv₂, hnd₁, hdisj₁, hreach₁, hcv₁, hcin₁, hm₁, hclos₁⟩ :=
            ih visited0 c m v₂ hc
          have hvis : visited' = (new₂ ++ new₁) ++ visited0 := by
            rw [hv', hv₂, List.append_assoc]
          have hsub₂ : ∀ k ∈ v₂, k ∈ visited' := by
            intro k hk
            rw [hv']
            exact List.mem_append.mpr (Or.inr hk)
          refine ⟨new₂ ++ new₁, hvis, ?_, ?_, ?_, ?_, ?_, ?_⟩
          · rw [List.nodup_append]
            refine ⟨hnd₂, hnd₁, ?_⟩
            intro a ha hb
            have : a ∉ v₂ := hdisj₂ a ha
            rw [hv₂] at this
            exact this (List.mem_append.mpr (Or.inl hb))
          · intro k hk
            rcases List.mem_append.mp hk with hk | hk
            · intro hkv
              apply hdisj₂ k hk
              rw [hv₂]
              exact List.mem_append.mpr (Or.inr hkv)
            · exact hdisj₁ k hk
          · intro k hk
            rcases List.mem_append.mp hk with hk | hk
            · obtain ⟨c₂, hc₂, hr⟩ := hreach₂ k hk
              exact ⟨c₂, List.mem_cons_of_mem _ hc₂, hr⟩
            · exact ⟨c, List.mem_cons_self _ _, hreach₁ k hk⟩
          · intro c₃ hc₃
            rcases List.mem_cons.mp hc₃ with hc₃ | hc₃
            · subst hc₃
              by_cases hcv : c₃ ∈ visited0
              · apply hsub₂
                rw [hv₂]
                exact List.mem_append.mpr (Or.inr hcv)
              · apply hsub₂
                rw [hv₂]
                exact List.mem_append.mpr (Or.inl (hcin₁ hcv))
            · exact hcs₂ c₃ hc₃
          · rw [hn₂, hm₁, List.map_append, List.sum_append]
            omega
          · intro k hk
            rcases List.mem_append.mp hk with hk | hk
            · exact hclos₂ k hk
            · intro c₂ hc₂
              exact hsub₂ c₂ (hclos₁ k hk c₂ hc₂)
    intro visited id n visited' heq
    unfold countF at heq
    by_cases hmem : id ∈ visited
    · rw [if_pos hmem] at heq
      simp only [Option.some.injEq, Prod.mk.injEq] at heq
      obtain ⟨hn, hv⟩ := heq
      subst hn
      subst hv
      refine ⟨[], by simp, by simp, by simp, by simp, fun _ => rfl,
        fun h => absurd hmem h, by simp, by simp⟩
    · rw [if_neg hmem] at heq
      obtain ⟨new₀, hv', hnd₀, hdisj₀, hreach₀, hcs₀, hn₀, hclos₀⟩ :=
        ihFold (DKG.getChildren g id) (DKG.getChildren g id).length (id :: visited)
          n visited' heq
      have hidnot : id ∉ new₀ := fun h => hdisj₀ id h (List.mem_cons_self _ _)
      refine ⟨new₀ ++ [id], ?_, ?_, ?_, ?_, fun h => absurd h hmem, ?_, ?_, ?_⟩
      · rw [hv', List.append_assoc]
        rfl
      · rw [List.nodup_append]
        exact ⟨hnd₀, by simp, by
          intro a ha hb
          simp at hb
          subst hb
          exact hidnot ha⟩
      · intro k hk
        rcases List.mem_append.mp hk with hk | hk
        · intro hkv
          exact hdisj₀ k hk (List.mem_cons_of_mem _ hkv)
        · simp at hk
          subst hk
          exact hmem
      · intro k hk
        rcases List.mem_append.mp hk with hk | hk
        · obtain ⟨c, hc, hr⟩ := hreach₀ k hk
          exact Relation.ReflTransGen.head hc hr
        · simp at hk
          subst hk
          exact Relation.ReflTransGen.refl
      · exact fun _ => List.mem_append.mpr (Or.inr (List.mem_cons_self _ _))
      · rw [hn₀, List.map_append, List.sum_append]
        simp
        omega
      · intro k hk
        rcases List.mem_append.mp hk with hk | hk
        · exact hclos₀ k hk
        · simp at hk
          subst hk
          exact hcs₀

theorem filter_notMem_length_le (U : List Str) {v₁ v₂ : List Str}
    (hsub : ∀ k ∈ v₁, k ∈ v₂) :
    (U.filter (fun k => decide (k ∉ v₂))).length ≤
      (U.filter (fun k => decide (k ∉ v₁))).length := by
  have h1 : U.filter (fun k => decide (k ∉ v₂)) =
      (U.filter (fun k => decide (k ∉ v₁))).filter (fun k => decide (k ∉ v₂)) := by
    rw [List.filter_filter]
    apply List.filter_congr
    intro a _
    by_cases hq : a ∈ v₂
    · simp [hq]
    · have hp : a ∉ v₁ := fun hc => hq (hsub a hc)
      simp [hq, hp]
  rw [h1]
  exact List.length_filter_le _ _

theorem filter_notMem_length_lt (U : List Str) {c : Str} {v : List Str}
    (hc : c ∈ U) (hnot : c ∉ v) :
    (U.filter (fun k => decide (k ∉ c :: v))).length <
      (U.filter (fun k => decide (k ∉ v))).length := by
  have h1 : U.filter (fun k => decide (k ∉ c :: v)) =
      (U.filter (fun k => decide (k ∉ v))).filter (fun k => decide (k ∉ c :: v)) := by
    rw [List.filter_filter]
    apply List.filter_congr
    intro a _
    by_cases hq : a ∈ c :: v
    · simp [hq]
    · have hp : a ∉ v := fun hcc => hq (List.mem_cons_of_mem _ hcc)
      simp [hq, hp]
  rw [h1]
  apply List.length_filter_lt_length_iff_exists.mpr
  refine ⟨c, ?_, ?_⟩
  · rw [List.mem_filter]
    exact ⟨hc, by simpa using hnot⟩
  · simp

theorem gapEdges_le_of_subset (g : DKG) {v₁ v₂ : List Str} (hsub : ∀ k ∈ v₁, k ∈ v₂) :
    gapEdges g v₂ ≤ gapEdges g v₁ :=
  filter_notMem_length_le _ hsub

theorem gapEdges_cons_lt (g : DKG) {c : Str} {v : List Str}
    (hc : c ∈ edgesTargets g) (hnot : c ∉ v) :
    gapEdges g (c :: v) < gapEdges g v :=
  filter_notMem_length_lt _ hc hnot

theorem getChildren_subset_edgesTargets (g : DKG) (v : Str) :
    ∀ x ∈ DKG.getChildren g v, x ∈ edgesTargets g := by
  intro x hx
  unfold DKG.getChildren at hx
  cases h : mapGet g.edges v with
  | none =>
    rw [h] at hx
    simp at hx
  | some l =>
    rw [h] at hx
    simp only [Option.getD_some] at hx
    unfold edgesTargets
    rw [List.mem_flatMap]
    exact ⟨(v, l), mapGet_mem h, hx⟩

theorem countF_fuel (g : DKG) : ∀ fuel,
    (∀ visited c, c ∈ edgesTargets g → gapEdges g visited < fuel →
      countF g fuel visited c ≠ none) ∧
    (∀ (cs : List Str) (startN : Nat) (visited0 : List Str),
      (∀ c ∈ cs, c ∈ edgesTargets g) → gapEdges g visited0 < fuel →
      cs.foldl (countFoldStep (countF g fuel)) (some (startN, visited0)) ≠ none) := by
  intro fuel
  induction fuel with
  | zero =>
    constructor
    · intro visited c _ h
      exact absurd h (Nat.not_lt_zero _)
    · intro cs startN visited0 _ h
      exact absurd h (Nat.not_lt_zero _)
  | succ fuel ih =>
    have hcF : ∀ visited c, c ∈ edgesTargets g → gapEdges g visited < fuel + 1 →
        countF g (fuel + 1) visited c ≠ none := by
      intro visited c hct hgap
      unfold countF
      by_cases hmem : c ∈ visited
      · rw [if_pos hmem]
        exact Option.some_ne_none _
      · rw [if_neg hmem]
        have hgap₂ : gapEdges g (c :: visited) < fuel := by
          have := gapEdges_cons_lt g hct hmem
          omega
        exact ih.2 (DKG.getChildren g c) (DKG.getChildren g c).length (c :: visited)
          (getChildren_subset_edgesTargets g c) hgap₂
    refine ⟨hcF, ?_⟩
    intro cs
    induction cs with
    | nil =>
      intro startN visited0 _ _
      exact Option.some_ne_none _
    | cons c cs ihcs =>
      intro startN visited0 hcs hgap
      rw [List.foldl_cons]
      cases hc : countF g (fuel + 1) visited0 c with
      | none => exact absurd hc (hcF visited0 c (hcs c (List.mem_cons_self _ _)) hgap)
      | some r =>
        obtain ⟨m, v₂⟩ := r
        rw [show countFoldStep (countF g (fuel + 1)) (some (startN, visited0)) c =
          some (startN + m, v₂) by simp [countFoldStep, hc]]
        obtain ⟨new, hv₂, _⟩ := countF_spec g (fuel + 1) visited0 c m v₂ hc
        have hsub : ∀ k ∈ visited0, k ∈ v₂ := by
          intro k hk
          rw [hv₂]
          exact List.mem_append.mpr (Or.inr hk)
        have hgap₂ : gapEdges g v₂ < fuel + 1 :=
          lt_of_le_of_lt (gapEdges_le_of_subset g hsub) hgap
        exact ihcs (startN + m) v₂ (fun q hq => hcs q (List.mem_cons_of_mem _ hq)) hgap₂

theorem countDescendants_eq_countF (g : DKG) (id : Str) :
    ∃ n visited', countF g (descFuel g) [] id = some (n, visited') ∧
      countDescendants g id = n := by
  have hne : countF g (descFuel g) [] id ≠ none := by
    show countF g ((edgesTargets g).length + 1 + 1) [] id ≠ none
    unfold countF
    by_cases hmem : id ∈ ([] : List Str)
    · simp at hmem
    · rw [if_neg hmem]
      apply (countF_fuel g ((edgesTargets g).length + 1)).2
      · exact getChildren_subset_edgesTargets g id
      · have : gapEdges g [id] ≤ (edgesTargets g).length := List.length_filter_le _ _
        omega
  cases h : countF g (descFuel g) [] id with
  | none => exact absurd h hne
  | some r =>
    obtain ⟨n, v'⟩ := r
    refine ⟨n, v', rfl, ?_⟩
    unfold countDescendants
    rw [h]

/-- Closure principle for reachability on concrete graphs. -/
theorem reach_subset_of_closed (g : DKG) (id : Str) (l : List Str)
    (hid : id ∈ l) (hclosed : ∀ v ∈ l, ∀ c ∈ DKG.getChildren g v, c ∈ l) :
    ∀ v, Reach g id v → v ∈ l := by
  intro v hv
  induction hv with
  | refl => exact hid
  | tail _ hbc ih => exact hclosed _ ih _ hbc

/-- C4 as stated is false: on the diamond graph `c4G` (edges a→b, a→c, b→d,
c→d) the node `d` is reachable from `a` along two paths, the set of nodes
reachable from `a` other than `a` itself is exactly {b, c, d} of size 3, yet
`countDescendants` returns 4 — the shared node `d` is counted once per
incoming edge, not once. -/
theorem C4_counterexample :
    countDescendants c4G ['a'] = 4 ∧
      (([['b'], ['c'], ['d']] : List Str).Nodup ∧
        (∀ v : Str, v ∈ ([['b'], ['c'], ['d']] : List Str) ↔
          Reach c4G ['a'] v ∧ v ≠ ['a']) ∧
        ([['b'], ['c'], ['d']] : List Str).length = 3) ∧
      countDescendants c4G ['a'] ≠ 3 := by
  have hb : Reach c4G ['a'] ['b'] :=
    Relation.ReflTransGen.single (by decide)
  have hc : Reach c4G ['a'] ['c'] :=
    Relation.ReflTransGen.single (by decide)
  have hd : Reach c4G ['a'] ['d'] :=
    Relation.ReflTransGen.tail hb (by decide)
  have hclosed : ∀ v ∈ ([['a'], ['b'], ['c'], ['d']] : List Str),
      ∀ c ∈ DKG.getChildren c4G v, c ∈ ([['a'], ['b'], ['c'], ['d']] : List Str) := by
    decide
  refine ⟨by decide, ⟨by decide, ?_, by decide⟩, by decide⟩
  intro v
  constructor
  · intro hv
    rcases List.mem_cons.mp hv with h | hv
    · subst h
      exact ⟨hb, by decide⟩
    rcases List.mem_cons.mp hv with h | hv
    · subst h
      exact ⟨hc, by decide⟩
    rcases List.mem_cons.mp hv with h | hv
    · subst h
      exact ⟨hd, by decide⟩
    · simp at hv
  · intro ⟨hr, hne⟩
    have := reach_subset_of_closed c4G ['a'] _ (by decide) hclosed v hr
    rcases List.mem_cons.mp this with h | this
    · exact absurd h hne
    · exact this

/-- C4 amended: `countDescendants` equals the sum of the child-list lengths
over all nodes reachable from the start node (the start node included): each
reachable node is entered once, contributing the length of its child list, so
a node reachable along multiple paths is counted once per incoming edge from
a reachable parent rather than once. On graphs where every node is reachable
along at most one path this equals the number of distinct proper
descendants. -/
theorem C4_countDescendants_amended (g : DKG) (id : Str) (l : List Str)
    (hnd : l.Nodup) (hmem : ∀ v, v ∈ l ↔ Reach g id v) :
    countDescendants g id = (l.map (fun v => (DKG.getChildren g v).length)).sum := by
  obtain ⟨n, v', heq, hcd⟩ := countDescendants_eq_countF g id
  obtain ⟨new, hv', hndnew, _, hreach, _, hin, hsum, hclos⟩ :=
    countF_spec g _ [] id n v' heq
  have hid : id ∈ new := hin (by simp)
  have hcl : ∀ u ∈ new, ∀ c ∈ DKG.getChildren g u, c ∈ new := by
    intro u hu c hc
    have hmc := hclos u hu c hc
    rw [hv'] at hmc
    simpa using hmc
  have hnew_reach : ∀ k, k ∈ new ↔ Reach g id k := by
    intro k
    constructor
    · exact hreach k
    · intro hr
      induction hr with
      | refl => exact hid
      | tail _ hbc ih => exact hcl _ ih _ hbc
  have hperm : new.Perm l :=
    (List.perm_ext_iff_of_nodup hndnew hnd).mpr
      (fun a => (hnew_reach a).trans ((hmem a).symm))
  rw [hcd, hsum]
  exact (hperm.map _).sum_eq

/-- Witness for the amended C4 at the diamond graph. -/
theorem C4_witness :
    (([['a'], ['b'], ['c'], ['d']] : List Str).Nodup ∧
      countDescendants c4G ['a'] =
        (([['a'], ['b'], ['c'], ['d']] : List Str).map
          (fun v => (DKG.getChildren c4G v).length)).sum) := by
  have hb : Reach c4G ['a'] ['b'] := Relation.ReflTransGen.single (by decide)
  have hc : Reach c4G ['a'] ['c'] := Relation.ReflTransGen.single (by decide)
  have hd : Reach c4G ['a'] ['d'] := Relation.ReflTransGen.tail hb (by decide)
  have hmem : ∀ v : Str, v ∈ ([['a'], ['b'], ['c'], ['d']] : List Str) ↔
      Reach c4G ['a'] v := by
    intro v
    constructor
    · intro hv
      rcases List.mem_cons.mp hv with h | hv
      · subst h
        exact Relation.ReflTransGen.refl
      rcases List.mem_cons.mp hv with h | hv
      · subst h
        exact hb
      rcases List.mem_cons.mp hv with h | hv
      · subst h
        exact hc
      rcases List.mem_cons.mp hv with h | hv
      · subst h
        exact hd
      · simp at hv
    · intro hr
      exact reach_subset_of_closed c4G ['a'] _ (by decide) (by decide) v hr
  exact ⟨by decide, C4_countDescendants_amended c4G ['a'] _ (by decide) hmem⟩

/-! ## Theorems: contribution weights (claim C2) -/

theorem mapSet_ne_nil {α : Type} (m : List (Str × α)) (k : Str) (v : α) :
    mapSet m k v ≠ [] := by
  cases m with
  | nil => simp [mapSet]
  | cons e rest =>
    obtain ⟨k₂, v₂⟩ := e
    unfold mapSet
    by_cases h : k₂ = k
    · rw [if_pos h]
      simp
    · rw [if_neg h]
      simp

theorem sumValsQ_mapSet_bump (k : Str) (w : ℚ) :
    ∀ m : List (Str × ℚ),
      ((mapSet m k ((mapGet m k).getD 0 + w)).map (fun e => e.2)).sum =
        (m.map (fun e => e.2)).sum + w := by
  intro m
  induction m with
  | nil => simp [mapSet, mapGet]
  | cons e rest ih =>
    obtain ⟨k₂, v₂⟩ := e
    by_cases hk : k₂ = k
    · subst hk
      have hget : mapGet ((k₂, v₂) :: rest) k₂ = some v₂ := by
        simp [mapGet]
      rw [hget]
      simp only [Option.getD_some]
      have hset : mapSet ((k₂, v₂) :: rest) k₂ (v₂ + w) = (k₂, v₂ + w) :: rest := by
        unfold mapSet
        rw [if_pos rfl]
      rw [hset]
      simp only [List.map_cons, List.sum_cons]
      ring
    · have hget : mapGet ((k₂, v₂) :: rest) k = mapGet rest k := by
        simp only [mapGet, if_neg hk]
      have hset : ∀ v, mapSet ((k₂, v₂) :: rest) k v = (k₂, v₂) :: mapSet rest k v := by
        intro v
        simp only [mapSet, if_neg hk]
      rw [hget, hset]
      simp only [List.map_cons, List.sum_cons, ih]
      ring

theorem valsQ_mapSet_nonneg {m : List (Str × ℚ)} (k : Str) (w : ℚ)
    (hm : ∀ v ∈ m.map (fun e => e.2), 0 ≤ v) (hw : 0 ≤ w) :
    ∀ v ∈ (mapSet m k ((mapGet m k).getD 0 + w)).map (fun e => e.2), 0 ≤ v := by
  have hbase : 0 ≤ (mapGet m k).getD 0 := by
    cases h : mapGet m k with
    | none => simp
    | some v₀ =>
      simp only [Option.getD_some]
      apply hm
      rw [List.mem_map]
      exact ⟨(k, v₀), mapGet_mem h, rfl⟩
  have hval : 0 ≤ (mapGet m k).getD 0 + w := by linarith
  generalize hvv : (mapGet m k).getD 0 + w = vv at hval
  clear hvv hbase hw
  induction m with
  | nil =>
    intro v hv
    simp [mapSet] at hv
    rw [hv]
    exact hval
  | cons e rest ih =>
    obtain ⟨k₂, v₂⟩ := e
    have hm₂ : ∀ v ∈ rest.map (fun e => e.2), 0 ≤ v := by
      intro v hv
      exact hm v (by
        rw [List.map_cons]
        exact List.mem_cons_of_mem _ hv)
    have hv₂ : (0 : ℚ) ≤ v₂ := hm v₂ (by simp)
    intro v hv
    unfold mapSet at hv
    by_cases hk : k₂ = k
    · rw [if_pos hk] at hv
      simp only [List.map_cons, List.mem_cons] at hv
      rcases hv with hv | hv
      · rw [hv]
        exact hval
      · exact hm₂ v hv
    · rw [if_neg hk] at hv
      simp only [List.map_cons, List.mem_cons] at hv
      rcases hv with hv | hv
      · rw [hv]
        exact hv₂
      · exact ih hm₂ v hv

theorem contribs_fold_sum (g : DKG) :
    ∀ (entries : List (Str × DKGNode)) (acc : List (Str × ℚ)),
      ((entries.foldl (weightStep g) acc).map (fun e => e.2)).sum =
        (acc.map (fun e => e.2)).sum +
          (entries.map (fun e => 1 + (countDescendants g e.1 : ℚ) * (1 / 10))).sum := by
  intro entries
  induction entries with
  | nil =>
    intro acc
    simp
  | cons e rest ih =>
    intro acc
    rw [List.foldl_cons, ih]
    show _ = (acc.map (fun e => e.2)).sum + (List.sum (List.map _ (e :: rest)))
    rw [List.map_cons, List.sum_cons]
    unfold weightStep
    rw [sumValsQ_mapSet_bump]
    ring

theorem contribs_fold_nonneg (g : DKG) :
    ∀ (entries : List (Str × DKGNode)) (acc : List (Str × ℚ)),
      (∀ v ∈ acc.map (fun e => e.2), 0 ≤ v) →
      ∀ v ∈ ((entries.foldl (weightStep g) acc).map (fun e => e.2)), 0 ≤ v := by
  intro entries
  induction entries with
  | nil =>
    intro acc hacc
    exact hacc
  | cons e rest ih =>
    intro acc hacc
    rw [List.foldl_cons]
    apply ih
    unfold weightStep
    apply valsQ_mapSet_nonneg _ _ hacc
    have h0 : (0 : ℚ) ≤ (countDescendants g e.1 : ℚ) := Nat.cast_nonneg _
    linarith

theorem contribs_fold_ne_nil (g : DKG) :
    ∀ (entries : List (Str × DKGNode)) (acc : List (Str × ℚ)),
      entries ≠ [] ∨ acc ≠ [] → entries.foldl (weightStep g) acc ≠ [] := by
  intro entries
  induction entries with
  | nil =>
    intro acc h
    rcases h with h | h
    · exact absurd rfl h
    · exact h
  | cons e rest ih =>
    intro acc _
    rw [List.foldl_cons]
    apply ih
    right
    exact mapSet_ne_nil _ _ _

theorem sum_ge_length_of_one_le :
    ∀ l : List ℚ, (∀ x ∈ l, 1 ≤ x) → (l.length : ℚ) ≤ l.sum := by
  intro l
  induction l with
  | nil => simp
  | cons x l ih =>
    intro h
    rw [List.sum_cons, List.length_cons]
    have h₁ : (1 : ℚ) ≤ x := h x (List.mem_cons_self _ _)
    have h₂ := ih (fun y hy => h y (List.mem_cons_of_mem _ hy))
    push_cast
    linarith

theorem sum_map_div (t : ℚ) :
    ∀ l : List ℚ, (l.map (fun v => v / t)).sum = l.sum / t := by
  intro l
  induction l with
  | nil => simp
  | cons x l ih =>
    rw [List.map_cons, List.sum_cons, List.sum_cons, ih, add_div]

/-- C2: the contribution weights of a non-empty graph are in `[0, 1]` and sum
to `1` exactly (hence within the tolerance `1e-6`); the empty graph yields
the empty mapping rather than an error. -/
theorem C2_contribution_weights (g : DKG) :
    (g.nodes = [] → computeContributionWeights g = []) ∧
    (g.nodes ≠ [] →
      |(((computeContributionWeights g).map (fun e => e.2)).sum) - 1| ≤ 1 / 1000000 ∧
      ∀ w ∈ (computeContributionWeights g).map (fun e => e.2), 0 ≤ w ∧ w ≤ 1) := by
  constructor
  · intro hnil
    unfold computeContributionWeights contribsOf
    rw [hnil]
    rfl
  · intro hne
    have hvalsnn : ∀ v ∈ (contribsOf g).map (fun e => e.2), 0 ≤ v :=
      contribs_fold_nonneg g g.nodes [] (by simp)
    have hsum : totalOf g =
        (g.nodes.map (fun e => 1 + (countDescendants g e.1 : ℚ) * (1 / 10))).sum := by
      unfold totalOf contribsOf
      rw [contribs_fold_sum]
      simp
    have hones : ∀ x ∈ g.nodes.map (fun e => 1 + (countDescendants g e.1 : ℚ) * (1 / 10)),
        1 ≤ x := by
      intro x hx
      rw [List.mem_map] at hx
      obtain ⟨e, _, hex⟩ := hx
      rw [← hex]
      have h0 : (0 : ℚ) ≤ (countDescendants g e.1 : ℚ) := Nat.cast_nonneg _
      linarith
    have hlen : 1 ≤ (g.nodes.length : ℚ) := by
      have : 1 ≤ g.nodes.length := by
        cases h : g.nodes with
        | nil => exact absurd h hne
        | cons e rest => simp
      exact_mod_cast this
    have htot : 1 ≤ totalOf g := by
      rw [hsum]
      have := sum_ge_length_of_one_le _ hones
      rw [List.length_map] at this
      linarith
    have htpos : 0 < totalOf g := by linarith
    have hvals : (computeContributionWeights g).map (fun e => e.2) =
        ((contribsOf g).map (fun e => e.2)).map (fun v => v / totalOf g) := by
      unfold computeContributionWeights
      rw [List.map_map, List.map_map]
      rfl
    constructor
    · rw [hvals, sum_map_div]
      show |totalOf g / totalOf g - 1| ≤ _
      rw [div_self (ne_of_gt htpos)]
      norm_num
    · intro w hw
      rw [hvals, List.mem_map] at hw
      obtain ⟨v, hv, hvw⟩ := hw
      have hv0 : 0 ≤ v := hvalsnn v hv
      have hvt : v ≤ totalOf g := List.single_le_sum hvalsnn v hv
      constructor
      · rw [← hvw]
        exact div_nonneg hv0 (le_of_lt htpos)
      · rw [← hvw]
        exact (div_le_one htpos).mpr hvt

/-- Witness for C2 at the diamond graph (non-empty) and the empty graph. -/
theorem C2_witness :
    (DKG.empty.nodes = [] ∧ computeContributionWeights DKG.empty = []) ∧
      c4G.nodes ≠ [] ∧
      |(((computeContributionWeights c4G).map (fun e => e.2)).sum) - 1| ≤ 1 / 1000000 ∧
      ∀ w ∈ (computeContributionWeights c4G).map (fun e => e.2), 0 ≤ w ∧ w ≤ 1 := by
  have hempty := (C2_contribution_weights DKG.empty).1 rfl
  have hc4 := (C2_contribution_weights c4G).2 (by decide)
  exact ⟨⟨rfl, hempty⟩, by decide, hc4.1, hc4.2⟩

/-! ## Theorems: thread root (claim C1) -/

theorem pairRound_length {D : Type} (f : D → D → D) :
    ∀ l : List D, (pairRound f l).length = (l.length + 1) / 2 := by
  have key : ∀ (n : Nat) (l : List D), l.length ≤ n →
      (pairRound f l).length = (l.length + 1) / 2 := by
    intro n
    induction n with
    | zero =>
      intro l h
      cases l with
      | nil => simp [pairRound]
      | cons x rest => simp at h
    | succ n ih =>
      intro l h
      cases l with
      | nil => simp [pairRound]
      | cons x rest =>
        cases rest with
        | nil => simp [pairRound]
        | cons y rest₂ =>
          have hstep : pairRound f (x :: y :: rest₂) = f x y :: pairRound f rest₂ := by
            simp [pairRound]
          rw [hstep, List.length_cons, ih rest₂ (by
            simp only [List.length_cons] at h
            omega)]
          simp only [List.length_cons]
          omega
  intro l
  exact key l.length l (le_refl _)

theorem reduceRoundsF_reducesTo {D : Type} (f : D → D → D) :
    ∀ (fuel : Nat) (l : List D), 1 ≤ l.length → l.length ≤ fuel + 1 →
      ∃ d, reduceRoundsF f fuel l = [d] ∧ ReducesTo f l d := by
  intro fuel
  induction fuel with
  | zero =>
    intro l h1 h2
    have hlen : l.length = 1 := by omega
    cases l with
    | nil => simp at hlen
    | cons x rest =>
      cases rest with
      | nil => exact ⟨x, rfl, ReducesTo.single x⟩
      | cons y rest₂ => simp at hlen
  | succ fuel ih =>
    intro l h1 h2
    unfold reduceRoundsF
    by_cases hlen : 1 < l.length
    · rw [if_pos hlen]
      have hp1 : 1 ≤ (pairRound f l).length := by
        rw [pairRound_length]
        omega
      have hp2 : (pairRound f l).length ≤ fuel + 1 := by
        rw [pairRound_length]
        omega
      obtain ⟨d, heq, hred⟩ := ih (pairRound f l) hp1 hp2
      exact ⟨d, heq, ReducesTo.step hlen hred⟩
    · rw [if_neg hlen]
      have hl1 : l.length = 1 := by omega
      cases l with
      | nil => simp at hl1
      | cons x rest =>
        cases rest with
        | nil => exact ⟨x, rfl, ReducesTo.single x⟩
        | cons y rest₂ => simp at hl1

theorem reducesTo_det {D : Type} (f : D → D → D) {l : List D} {d₁ d₂ : D}
    (h₁ : ReducesTo f l d₁) (h₂ : ReducesTo f l d₂) : d₁ = d₂ := by
  induction h₁ generalizing d₂ with
  | single x =>
    cases h₂ with
    | single => rfl
    | step hlen _ => simp at hlen
  | step hlen hsub ih =>
    cases h₂ with
    | single => simp at hlen
    | step _ hsub₂ => exact ih hsub₂

theorem topologicalSortPairs_of_empty (g : DKG) (hnil : g.nodes = []) :
    topologicalSortPairs g = .ok [] := by
  unfold topologicalSortPairs
  have hkeys : mapKeys g.nodes = [] := by rw [hnil]; rfl
  rw [hkeys]
  rfl

/-- C1: `computeThreadRoot` returns the all-zero digest on the empty graph,
the node's canonical hash on a single-node graph, and on larger graphs the
digest obtained from the topologically-sorted sequence by mapping each node
to its canonical hash and repeatedly hashing adjacent pairs (carrying an
unpaired final element to the next round) until one digest remains — for
every choice of the zero digest, leaf hash and pair hash. -/
theorem C1_computeThreadRoot {D : Type} (dzero : D) (hashLeaf : Str → D)
    (hashPair : D → D → D) (g : DKG) :
    (g.nodes = [] → computeThreadRoot dzero hashLeaf hashPair g = .ok dzero) ∧
    (∀ id n, topologicalSortPairs g = .ok [(id, n)] →
      computeThreadRoot dzero hashLeaf hashPair g = .ok (computeCanonicalHash hashLeaf n)) ∧
    (∀ l, topologicalSortPairs g = .ok l → l ≠ [] →
      ∃ d, ReducesTo hashPair (l.map (fun e => computeCanonicalHash hashLeaf e.2)) d ∧
        computeThreadRoot dzero hashLeaf hashPair g = .ok d) := by
  refine ⟨?_, ?_, ?_⟩
  · intro hnil
    unfold computeThreadRoot
    rw [topologicalSortPairs_of_empty g hnil]
    rfl
  · intro id n hok
    unfold computeThreadRoot
    rw [hok]
    dsimp only
    rfl
  · intro l hok hne
    unfold computeThreadRoot
    rw [hok]
    dsimp only
    have hlen : l.length ≠ 0 := fun h => hne (List.length_eq_zero.mp h)
    rw [if_neg hlen]
    by_cases h1 : (l.map (fun e => computeCanonicalHash hashLeaf e.2)).length = 1
    · rw [if_pos h1]
      cases hl : l.map (fun e => computeCanonicalHash hashLeaf e.2) with
      | nil => rw [hl] at h1; simp at h1
      | cons d rest =>
        cases rest with
        | nil => exact ⟨d, ReducesTo.single d, by simp⟩
        | cons d₂ rest₂ => rw [hl] at h1; simp at h1
    · rw [if_neg h1]
      have hge : 1 ≤ (l.map (fun e => computeCanonicalHash hashLeaf e.2)).length := by
        rw [List.length_map]
        omega
      obtain ⟨d, heq, hred⟩ := reduceRoundsF_reducesTo hashPair
        (l.map (fun e => computeCanonicalHash hashLeaf e.2)).length
        (l.map (fun e => computeCanonicalHash hashLeaf e.2)) hge (by omega)
      refine ⟨d, hred, ?_⟩
      rw [heq]
      rfl

/-- Witness for C1: the empty graph, a one-node graph, and the two-node graph
`c7G`, with string digests and concatenation as the pair hash. -/
theorem C1_witness :
    (DKG.empty.nodes = [] ∧
      computeThreadRoot ([] : Str) (fun s => s) (· ++ ·) DKG.empty = .ok []) ∧
    (topologicalSortPairs (DKG.ofNodes [wRoot]) = .ok [(['r'], wRoot)] ∧
      computeThreadRoot ([] : Str) (fun s => s) (· ++ ·) (DKG.ofNodes [wRoot]) =
        .ok (computeCanonicalHash (fun s => s) wRoot)) ∧
    (topologicalSortPairs c7G = .ok [(['r'], wRoot), (['l', 'f'], wLeaf)] ∧
      ∃ d, ReducesTo (· ++ ·)
          ([(['r'], wRoot), (['l', 'f'], wLeaf)].map
            (fun e => computeCanonicalHash (fun s : Str => s) e.2)) d ∧
        computeThreadRoot ([] : Str) (fun s => s) (· ++ ·) c7G = .ok d) := by
  refine ⟨⟨rfl, ?_⟩, ⟨?_, ?_⟩, ⟨?_, ?_⟩⟩
  · exact (C1_computeThreadRoot ([] : Str) (fun s => s) (· ++ ·) DKG.empty).1 rfl
  · decide
  · exact (C1_computeThreadRoot ([] : Str) (fun s => s) (· ++ ·) (DKG.ofNodes [wRoot])).2.1
      ['r'] wRoot (by decide)
  · decide
  · have h := (C1_computeThreadRoot ([] : Str) (fun s => s) (· ++ ·) c7G).2.2
      [(['r'], wRoot), (['l', 'f'], wLeaf)] (by decide) (by simp)
    exact h

/-! ## Theorems: causal chain tracing (claim C9) -/

theorem pathTo_ne_nil {g : DKG} {a b : Str} {p : List Str} (h : PathTo g a b p) :
    p ≠ [] := by
  cases h with
  | refl => simp
  | snoc hb hc => simp

theorem pathTo_length_pos {g : DKG} {a b : Str} {p : List Str} (h : PathTo g a b p) :
    1 ≤ p.length := by
  cases hp : p with
  | nil => exact absurd hp (pathTo_ne_nil h)
  | cons x rest => simp

theorem pathTo_reach {g : DKG} {a b : Str} {p : List Str} (h : PathTo g a b p) :
    Reach g a b := by
  induction h with
  | refl => exact Relation.ReflTransGen.refl
  | snoc hb hc ih => exact Relation.ReflTransGen.tail ih hc

theorem reach_pathTo {g : DKG} {a b : Str} (h : Reach g a b) :
    ∃ p, PathTo g a b p := by
  induction h with
  | refl => exact ⟨[a], PathTo.refl⟩
  | tail hr hc ih =>
    obtain ⟨p, hp⟩ := ih
    exact ⟨p ++ [_], PathTo.snoc hp hc⟩

theorem pathTo_last_mem {g : DKG} {a b : Str} {p : List Str} (h : PathTo g a b p) :
    b ∈ p := by
  cases h with
  | refl => exact List.mem_cons_self _ _
  | snoc hb hc => exact List.mem_append.mpr (Or.inr (List.mem_cons_self _ _))

theorem children_has {g : DKG}
    (hwf : ∀ e ∈ g.edges, ∀ c ∈ e.2, mapHas g.nodes c = true) :
    ∀ id c, c ∈ DKG.getChildren g id → mapHas g.nodes c = true := by
  intro id c hc
  unfold DKG.getChildren at hc
  cases hg : mapGet g.edges id with
  | none => rw [hg] at hc; simp at hc
  | some l =>
    rw [hg] at hc
    simp at hc
    exact hwf (id, l) (mapGet_mem hg) c hc

theorem pathTo_mem_has {g : DKG} {a b : Str} {p : List Str}
    (hwf : ∀ e ∈ g.edges, ∀ c ∈ e.2, mapHas g.nodes c = true)
    (ha : mapHas g.nodes a = true) (h : PathTo g a b p) :
    ∀ id ∈ p, mapHas g.nodes id = true := by
  induction h with
  | refl =>
    intro id hid
    simp at hid
    rw [hid]; exact ha
  | snoc hb hc ih =>
    intro id hid
    rcases List.mem_append.mp hid with hmem | hmem
    · exact ih id hmem
    · simp at hmem
      rw [hmem]
      exact children_has hwf _ _ hc

theorem filterMap_mapGet_length (g : DKG) :
    ∀ l : List Str, (∀ id ∈ l, mapHas g.nodes id = true) →
      (l.filterMap (fun id => mapGet g.nodes id)).length = l.length := by
  intro l
  induction l with
  | nil => intro _; rfl
  | cons id rest ih =>
    intro hall
    have hid : mapHas g.nodes id = true := hall id (List.mem_cons_self _ _)
    unfold mapHas at hid
    obtain ⟨v, hv⟩ := Option.isSome_iff_exists.mp hid
    rw [List.filterMap_cons, hv, List.length_cons,
      ih (fun x hx => hall x (List.mem_cons_of_mem _ hx)), List.length_cons]

theorem sumFilter_mono (f : Str → Nat) :
    ∀ (l : List Str) (v₁ v₂ : List Str), (∀ x ∈ v₁, x ∈ v₂) →
      ((l.filter (fun x => decide (x ∉ v₂))).map f).sum ≤
        ((l.filter (fun x => decide (x ∉ v₁))).map f).sum := by
  intro l
  induction l with
  | nil => intro v₁ v₂ _; simp
  | cons a rest ih =>
    intro v₁ v₂ hsub
    by_cases h2 : a ∈ v₂
    · rw [List.filter_cons, if_neg (by simp [h2])]
      by_cases h1 : a ∈ v₁
      · rw [List.filter_cons, if_neg (by simp [h1])]
        exact ih v₁ v₂ hsub
      · rw [List.filter_cons, if_pos (by simp [h1])]
        simp only [List.map_cons, List.sum_cons]
        have := ih v₁ v₂ hsub
        omega
    · have h1 : a ∉ v₁ := fun hin => h2 (hsub a hin)
      rw [List.filter_cons, if_pos (by simp [h2]), List.filter_cons, if_pos (by simp [h1])]
      simp only [List.map_cons, List.sum_cons]
      have := ih v₁ v₂ hsub
      omega

theorem sumFilter_cons (f : Str → Nat) :
    ∀ (l : List Str) (v : List Str) (k : Str), k ∈ l → k ∉ v →
      ((l.filter (fun x => decide (x ∉ k :: v))).map f).sum + f k ≤
        ((l.filter (fun x => decide (x ∉ v))).map f).sum := by
  intro l
  induction l with
  | nil => intro v k hk _; simp at hk
  | cons a rest ih =>
    intro v k hk hkv
    by_cases hak : a = k
    · subst hak
      rw [List.filter_cons, if_neg (by simp), List.filter_cons, if_pos (by simp [hkv])]
      simp only [List.map_cons, List.sum_cons]
      have hmono := sumFilter_mono f rest v (a :: v) (fun x hx => List.mem_cons_of_mem _ hx)
      omega
    · have hk₂ : k ∈ rest := by
        rcases List.mem_cons.mp hk with h | h
        · exact absurd h.symm hak
        · exact h
      have hstep := ih v k hk₂ hkv
      by_cases hav : a ∈ v
      · rw [List.filter_cons, if_neg (by simp [hav]), List.filter_cons,
          if_neg (by simp [hav])]
        exact hstep
      · have hakv : a ∉ k :: v := by
          intro h
          rcases List.mem_cons.mp h with h | h
          · exact hak h
          · exact hav h
        rw [List.filter_cons, if_pos (by simp [hakv]), List.filter_cons, if_pos (by simp [hav])]
        simp only [List.map_cons, List.sum_cons]
        omega

theorem outSum_cons (g : DKG) {v : List Str} {k : Str}
    (hk : k ∈ mapKeys g.nodes) (hkv : k ∉ v) :
    outSum g (k :: v) + (DKG.getChildren g k).length ≤ outSum g v :=
  sumFilter_cons _ (mapKeys g.nodes) v k hk hkv

theorem traceF_ne_none (g : DKG) (toId : Str)
    (hwf : ∀ e ∈ g.edges, ∀ c ∈ e.2, mapHas g.nodes c = true) :
    ∀ fuel queue visited,
      (∀ e ∈ queue, e.1 ∈ mapKeys g.nodes) →
      queue.length + outSum g visited < fuel →
      traceF g toId fuel queue visited ≠ none := by
  intro fuel
  induction fuel with
  | zero =>
    intro queue visited _ hlt
    omega
  | succ fuel ih =>
    intro queue visited hmem hlt
    cases queue with
    | nil => simp [traceF]
    | cons e queue =>
      unfold traceF
      by_cases ht : e.1 = toId
      · rw [if_pos ht]
        simp
      · rw [if_neg ht]
        by_cases hv : e.1 ∈ visited
        · rw [if_pos hv]
          apply ih queue visited (fun x hx => hmem x (List.mem_cons_of_mem _ hx))
          simp only [List.length_cons] at hlt
          omega
        · rw [if_neg hv]
          apply ih
          · intro x hx
            rcases List.mem_append.mp hx with hq | hn
            · exact hmem x (List.mem_cons_of_mem _ hq)
            · obtain ⟨c, hc, hcx⟩ := List.mem_map.mp hn
              have hcc : c ∈ DKG.getChildren g e.1 := List.mem_of_mem_filter hc
              rw [← hcx]
              exact (mapHas_iff _ _).mp (children_has hwf e.1 c hcc)
          · have hkey : e.1 ∈ mapKeys g.nodes := hmem e (List.mem_cons_self _ _)
            have hdec := outSum_cons g hkey hv
            have hfil : ((DKG.getChildren g e.1).filter
                (fun c => decide (c ∉ e.1 :: visited))).length ≤
                (DKG.getChildren g e.1).length := List.length_filter_le _ _
            simp only [List.length_append, List.length_map, List.length_cons] at hlt ⊢
            omega

theorem traceF_eq_traceFI (g : DKG) (toId : Str) :
    ∀ fuel queue visitedL,
      traceF g toId fuel queue (visitedL.map Prod.fst) =
        traceFI g toId fuel queue visitedL := by
  intro fuel
  induction fuel with
  | zero =>
    intro queue visitedL
    cases queue with
    | nil => rfl
    | cons e queue => rfl
  | succ fuel ih =>
    intro queue visitedL
    cases queue with
    | nil => rfl
    | cons e queue =>
      unfold traceF traceFI
      by_cases ht : e.1 = toId
      · rw [if_pos ht, if_pos ht]
      · rw [if_neg ht, if_neg ht]
        by_cases hv : e.1 ∈ visitedL.map Prod.fst
        · rw [if_pos hv, if_pos hv]
          exact ih queue visitedL
        · rw [if_neg hv, if_neg hv]
          have := ih (queue ++ ((DKG.getChildren g e.1).filter
              (fun c => decide (c ∉ e.1 :: visitedL.map Prod.fst))).map
              (fun c => (c, e.2 ++ [c]))) ((e.1, e.2.length) :: visitedL)
          simpa using this

theorem sorted_map_const {α : Type} (l : List α) (k : Nat) :
    List.Sorted (fun a b : Nat => a ≤ b) (l.map (fun _ => k)) := by
  induction l with
  | nil => simp
  | cons a rest ih =>
    rw [List.map_cons]
    refine List.sorted_cons.mpr ⟨?_, ih⟩
    intro b hb
    obtain ⟨c, _, hc⟩ := List.mem_map.mp hb
    omega

theorem headLen_min {e : Str × List Str} {queue : List (Str × List Str)}
    (hs : List.Sorted (fun a b : Nat => a ≤ b)
      ((e :: queue).map (fun x => x.2.length))) :
    ∀ x ∈ e :: queue, e.2.length ≤ x.2.length := by
  intro x hx
  rcases List.mem_cons.mp hx with h | h
  · rw [h]
  · rw [List.map_cons] at hs
    have hpair := (List.pairwise_cons.mp hs).1
    exact hpair x.2.length (List.mem_map.mpr ⟨x, h, rfl⟩)

theorem mem_fst_exists {L : List (Str × Nat)} {c : Str}
    (h : c ∈ L.map Prod.fst) : ∃ d, (c, d) ∈ L := by
  obtain ⟨p, hp, hfst⟩ := List.mem_map.mp h
  refine ⟨p.2, ?_⟩
  rw [← hfst]
  exact hp

theorem bfs_head_min {g : DKG} {fromId toId : Str} {e : Str × List Str}
    {queue : List (Str × List Str)} {visitedL : List (Str × Nat)} {m : Nat}
    (hinv : BFSInv g fromId toId (e :: queue) visitedL m) :
    ∀ z q, PathTo g fromId z q →
      e.2.length ≤ q.length ∨ ∃ d, (z, d) ∈ visitedL ∧ d ≤ q.length := by
  obtain ⟨hQ1, hQ2, hQ3, hV1, hVt, hV2, hSrc⟩ := hinv
  have hmin := headLen_min hQ2
  intro z q hq
  induction hq with
  | refl =>
    rcases hSrc with ⟨e₂, he₂, hfst, hlen⟩ | ⟨d, hd, hlen⟩
    · left
      have := hmin e₂ he₂
      simp only [List.length_cons, List.length_nil]
      omega
    · right
      exact ⟨d, hd, by simpa using hlen⟩
  | snoc hb hc ih =>
    rename_i b c p
    rcases ih with hle | ⟨d, hd, hdle⟩
    · left
      simp only [List.length_append, List.length_cons, List.length_nil]
      omega
    · rcases hV2 (b, d) hd c hc with ⟨d₂, hd₂, hle₂⟩ | ⟨e₂, he₂, hfst, hlen₂⟩
      · right
        refine ⟨d₂, hd₂, ?_⟩
        simp only [List.length_append, List.length_cons, List.length_nil]
        omega
      · left
        have := hmin e₂ he₂
        simp only [List.length_append, List.length_cons, List.length_nil]
        omega

theorem bfs_empty_unreachable {g : DKG} {fromId toId : Str}
    {visitedL : List (Str × Nat)} {m : Nat}
    (hinv : BFSInv g fromId toId [] visitedL m) :
    ∀ q, ¬ PathTo g fromId toId q := by
  obtain ⟨hQ1, hQ2, hQ3, hV1, hVt, hV2, hSrc⟩ := hinv
  have walk : ∀ z q, PathTo g fromId z q → ∃ d, (z, d) ∈ visitedL := by
    intro z q hq
    induction hq with
    | refl =>
      rcases hSrc with ⟨e₂, he₂, _⟩ | ⟨d, hd, _⟩
      · exact absurd he₂ (List.not_mem_nil _)
      · exact ⟨d, hd⟩
    | snoc hb hc ih =>
      rename_i b c p
      obtain ⟨d, hd⟩ := ih
      rcases hV2 (b, d) hd c hc with ⟨d₂, hd₂, _⟩ | ⟨e₂, he₂, _⟩
      · exact ⟨d₂, hd₂⟩
      · exact absurd he₂ (List.not_mem_nil _)
  intro q hq
  obtain ⟨d, hd⟩ := walk toId q hq
  exact hVt (toId, d) hd rfl

theorem bfsInv_skip {g : DKG} {fromId toId : Str} {e : Str × List Str}
    {queue : List (Str × List Str)} {visitedL : List (Str × Nat)} {m : Nat}
    (hinv : BFSInv g fromId toId (e :: queue) visitedL m)
    (hv : e.1 ∈ visitedL.map Prod.fst) :
    BFSInv g fromId toId queue visitedL m := by
  obtain ⟨hQ1, hQ2, hQ3, hV1, hVt, hV2, hSrc⟩ := hinv
  have hm : m ≤ e.2.length := (hQ3 e (List.mem_cons_self _ _)).1
  refine ⟨?_, ?_, ?_, hV1, hVt, ?_, ?_⟩
  · exact fun x hx => hQ1 x (List.mem_cons_of_mem _ hx)
  · rw [List.map_cons] at hQ2
    exact (List.pairwise_cons.mp hQ2).2
  · exact fun x hx => hQ3 x (List.mem_cons_of_mem _ hx)
  · intro vd hvd c hc
    rcases hV2 vd hvd c hc with ⟨d₂, hd₂, hle₂⟩ | ⟨e₂, he₂, hfst, hlen₂⟩
    · exact Or.inl ⟨d₂, hd₂, hle₂⟩
    · rcases List.mem_cons.mp he₂ with heq | hmem
      · subst heq
        rw [hfst] at hv
        obtain ⟨d₃, hd₃⟩ := mem_fst_exists hv
        refine Or.inl ⟨d₃, hd₃, ?_⟩
        have := hV1 (c, d₃) hd₃
        omega
      · exact Or.inr ⟨e₂, hmem, hfst, hlen₂⟩
  · rcases hSrc with ⟨e₂, he₂, hfst, hlen⟩ | hvis
    · rcases List.mem_cons.mp he₂ with heq | hmem
      · subst heq
        rw [hfst] at hv
        obtain ⟨d₃, hd₃⟩ := mem_fst_exists hv
        refine Or.inr ⟨d₃, hd₃, ?_⟩
        have := hV1 (fromId, d₃) hd₃
        omega
      · exact Or.inl ⟨e₂, hmem, hfst, hlen⟩
    · exact Or.inr hvis

theorem bfsInv_step {g : DKG} {fromId toId : Str} {e : Str × List Str}
    {queue : List (Str × List Str)} {visitedL : List (Str × Nat)} {m : Nat}
    (hinv : BFSInv g fromId toId (e :: queue) visitedL m)
    (ht : e.1 ≠ toId) (hv : e.1 ∉ visitedL.map Prod.fst) :
    BFSInv g fromId toId
      (queue ++ ((DKG.getChildren g e.1).filter
        (fun c => decide (c ∉ e.1 :: visitedL.map Prod.fst))).map
        (fun c => (c, e.2 ++ [c])))
      ((e.1, e.2.length) :: visitedL) e.2.length := by
  obtain ⟨hQ1, hQ2, hQ3, hV1, hVt, hV2, hSrc⟩ := hinv
  have hmin := headLen_min hQ2
  have hm : m ≤ e.2.length ∧ e.2.length ≤ m + 1 := hQ3 e (List.mem_cons_self _ _)
  have hnewLen : ∀ x ∈ ((DKG.getChildren g e.1).filter
      (fun c => decide (c ∉ e.1 :: visitedL.map Prod.fst))).map
      (fun c => (c, e.2 ++ [c])), x.2.length = e.2.length + 1 := by
    intro x hx
    obtain ⟨c, _, hcx⟩ := List.mem_map.mp hx
    rw [← hcx]
    simp
  refine ⟨?_, ?_, ?_, ?_, ?_, ?_, ?_⟩
  · intro x hx
    rcases List.mem_append.mp hx with hq | hn
    · exact hQ1 x (List.mem_cons_of_mem _ hq)
    · obtain ⟨c, hc, hcx⟩ := List.mem_map.mp hn
      rw [← hcx]
      exact PathTo.snoc (hQ1 e (List.mem_cons_self _ _)) (List.mem_of_mem_filter hc)
  · rw [List.map_append]
    refine List.pairwise_append.mpr ⟨?_, ?_, ?_⟩
    · rw [List.map_cons] at hQ2
      exact (List.pairwise_cons.mp hQ2).2
    · have hconst : ((DKG.getChildren g e.1).filter
          (fun c => decide (c ∉ e.1 :: visitedL.map Prod.fst))).map
          ((fun x => x.2.length) ∘ (fun c => (c, e.2 ++ [c]))) =
          ((DKG.getChildren g e.1).filter
            (fun c => decide (c ∉ e.1 :: visitedL.map Prod.fst))).map
            (fun _ => e.2.length + 1) := by
        apply List.map_congr_left
        intro a _
        simp
      rw [List.map_map, hconst]
      exact sorted_map_const _ _
    · intro a ha b hb
      obtain ⟨x, hx, hax⟩ := List.mem_map.mp ha
      obtain ⟨y, hy, hby⟩ := List.mem_map.mp hb
      have hxb : x.2.length ≤ m + 1 := (hQ3 x (List.mem_cons_of_mem _ hx)).2
      have hyl : y.2.length = e.2.length + 1 := hnewLen y hy
      omega
  · intro x hx
    rcases List.mem_append.mp hx with hq | hn
    · have h1 := hmin x (List.mem_cons_of_mem _ hq)
      have h2 := (hQ3 x (List.mem_cons_of_mem _ hq)).2
      omega
    · have := hnewLen x hn
      omega
  · intro vd hvd
    rcases List.mem_cons.mp hvd with heq | hmem
    · rw [heq]
    · have := hV1 vd hmem
      omega
  · intro vd hvd
    rcases List.mem_cons.mp hvd with heq | hmem
    · rw [heq]
      exact ht
    · exact hVt vd hmem
  · intro vd hvd c hc
    rcases List.mem_cons.mp hvd with heq | hmem
    · subst heq
      by_cases hcv : c ∈ e.1 :: visitedL.map Prod.fst
      · rcases List.mem_cons.mp hcv with hce | hcm
        · refine Or.inl ⟨e.2.length, ?_, by omega⟩
          rw [hce]
          exact List.mem_cons_self _ _
        · obtain ⟨d₃, hd₃⟩ := mem_fst_exists hcm
          refine Or.inl ⟨d₃, List.mem_cons_of_mem _ hd₃, ?_⟩
          have := hV1 (c, d₃) hd₃
          omega
      · refine Or.inr ⟨(c, e.2 ++ [c]), ?_, rfl, by simp⟩
        refine List.mem_append.mpr (Or.inr ?_)
        exact List.mem_map.mpr ⟨c, List.mem_filter.mpr ⟨hc, by simp [hcv]⟩, rfl⟩
    · rcases hV2 vd hmem c hc with ⟨d₂, hd₂, hle₂⟩ | ⟨e₂, he₂, hfst, hlen₂⟩
      · exact Or.inl ⟨d₂, List.mem_cons_of_mem _ hd₂, hle₂⟩
      · rcases List.mem_cons.mp he₂ with heq₂ | hmem₂
        · subst heq₂
          refine Or.inl ⟨e₂.2.length, ?_, hlen₂⟩
          rw [← hfst]
          exact List.mem_cons_self _ _
        · exact Or.inr ⟨e₂, List.mem_append.mpr (Or.inl hmem₂), hfst, hlen₂⟩
  · rcases hSrc with ⟨e₂, he₂, hfst, hlen⟩ | ⟨d, hd, hlen⟩
    · rcases List.mem_cons.mp he₂ with heq | hmem
      · subst heq
        refine Or.inr ⟨e₂.2.length, ?_, hlen⟩
        rw [← hfst]
        exact List.mem_cons_self _ _
      · exact Or.inl ⟨e₂, List.mem_append.mpr (Or.inl hmem), hfst, hlen⟩
    · exact Or.inr ⟨d, List.mem_cons_of_mem _ hd, hlen⟩

theorem traceFI_sound_min (g : DKG) (fromId toId : Str) :
    ∀ fuel queue visitedL m, BFSInv g fromId toId queue visitedL m →
      ∀ p, traceFI g toId fuel queue visitedL = some p →
        (p = [] → ∀ q, ¬ PathTo g fromId toId q) ∧
        (p ≠ [] → PathTo g fromId toId p ∧
          ∀ q, PathTo g fromId toId q → p.length ≤ q.length) := by
  intro fuel
  induction fuel with
  | zero =>
    intro queue visitedL m hinv p hp
    cases queue with
    | nil =>
      simp [traceFI] at hp
      subst hp
      exact ⟨fun _ => bfs_empty_unreachable hinv, fun h => absurd rfl h⟩
    | cons e queue => simp [traceFI] at hp
  | succ fuel ih =>
    intro queue visitedL m hinv p hp
    cases queue with
    | nil =>
      simp [traceFI] at hp
      subst hp
      exact ⟨fun _ => bfs_empty_unreachable hinv, fun h => absurd rfl h⟩
    | cons e queue =>
      unfold traceFI at hp
      by_cases ht : e.1 = toId
      · rw [if_pos ht] at hp
        have hpe : e.2 = p := by simpa using hp
        subst hpe
        have hpath : PathTo g fromId toId e.2 := by
          rw [← ht]
          exact hinv.1 e (List.mem_cons_self _ _)
        refine ⟨fun hnil => absurd hnil (pathTo_ne_nil hpath), fun _ => ⟨hpath, ?_⟩⟩
        intro q hq
        rcases bfs_head_min hinv toId q hq with hle | ⟨d, hd, _⟩
        · exact hle
        · exact absurd rfl (hinv.2.2.2.2.1 (toId, d) hd)
      · rw [if_neg ht] at hp
        by_cases hv : e.1 ∈ visitedL.map Prod.fst
        · rw [if_pos hv] at hp
          exact ih queue visitedL m (bfsInv_skip hinv hv) p hp
        · rw [if_neg hv] at hp
          exact ih _ _ _ (bfsInv_step hinv ht hv) p hp

theorem bfsInv_init (g : DKG) (fromId toId : Str) :
    BFSInv g fromId toId [(fromId, [fromId])] [] 1 := by
  refine ⟨?_, ?_, ?_, ?_, ?_, ?_, ?_⟩
  · intro e he
    simp at he
    rw [he]
    exact PathTo.refl
  · simp [List.Sorted]
  · intro e he
    simp at he
    rw [he]
    simp
  · intro vd hvd
    simp at hvd
  · intro vd hvd
    simp at hvd
  · intro vd hvd
    simp at hvd
  · exact Or.inl ⟨(fromId, [fromId]), List.mem_cons_self _ _, rfl, by simp⟩

/-- C9: `traceCausalChain` never fails: it returns the empty list when either
endpoint id is absent from the store, and when no forward child-edge path from
`fromId` to `toId` exists; when both ids are stored and such a path exists, it
returns the stored nodes of an id path from `fromId` to `toId` (inclusive, in
order, one node per path id) of minimum length among all forward paths — under
the well-formedness condition that every stored edge target is a stored node,
which `addNode` maintains for every graph built through the class API. -/
theorem C9_traceCausalChain (g : DKG) (fromId toId : Str)
    (hwf : ∀ e ∈ g.edges, ∀ c ∈ e.2, mapHas g.nodes c = true) :
    ((mapHas g.nodes fromId = false ∨ mapHas g.nodes toId = false) →
      DKG.traceCausalChain g fromId toId = []) ∧
    (¬ Reach g fromId toId → DKG.traceCausalChain g fromId toId = []) ∧
    (mapHas g.nodes fromId = true → Reach g fromId toId →
      ∃ ids, PathTo g fromId toId ids ∧
        (∀ q, PathTo g fromId toId q → ids.length ≤ q.length) ∧
        (∀ id ∈ ids, mapHas g.nodes id = true) ∧
        DKG.traceCausalChain g fromId toId =
          ids.filterMap (fun id => mapGet g.nodes id) ∧
        (DKG.traceCausalChain g fromId toId).length = ids.length) := by
  refine ⟨?_, ?_, ?_⟩
  · intro h
    unfold DKG.traceCausalChain
    rcases h with h | h
    · rw [if_neg (by simp [h])]
    · rw [if_neg (by simp [h])]
  · intro hnr
    unfold DKG.traceCausalChain
    by_cases hf : (mapHas g.nodes fromId && mapHas g.nodes toId) = true
    · rw [if_pos hf]
      have hrel := traceF_eq_traceFI g toId (traceFuel g) [(fromId, [fromId])] []
      simp only [List.map_nil] at hrel
      rw [hrel]
      cases hres : traceFI g toId (traceFuel g) [(fromId, [fromId])] [] with
      | none => rfl
      | some p =>
        have hm := traceFI_sound_min g fromId toId (traceFuel g) _ _ 1
          (bfsInv_init g fromId toId) p hres
        by_cases hpe : p = []
        · rw [hpe]
          rfl
        · exact absurd (pathTo_reach (hm.2 hpe).1) hnr
    · rw [if_neg hf]
  · intro hf hr
    have hto : mapHas g.nodes toId = true := by
      obtain ⟨q, hq⟩ := reach_pathTo hr
      exact pathTo_mem_has hwf hf hq toId (pathTo_last_mem hq)
    unfold DKG.traceCausalChain
    rw [if_pos (by rw [hf, hto]; rfl)]
    have hrel := traceF_eq_traceFI g toId (traceFuel g) [(fromId, [fromId])] []
    simp only [List.map_nil] at hrel
    have hnn := traceF_ne_none g toId hwf (traceFuel g) [(fromId, [fromId])] []
      (by
        intro e he
        simp at he
        rw [he]
        exact (mapHas_iff _ _).mp hf)
      (by
        unfold traceFuel
        simp only [List.length_cons, List.length_nil]
        omega)
    cases hres : traceFI g toId (traceFuel g) [(fromId, [fromId])] [] with
    | none =>
      rw [hrel] at hnn
      exact absurd hres hnn
    | some p =>
      have hm := traceFI_sound_min g fromId toId (traceFuel g) _ _ 1
        (bfsInv_init g fromId toId) p hres
      by_cases hpe : p = []
      · exfalso
        obtain ⟨q, hq⟩ := reach_pathTo hr
        exact (hm.1 hpe) q hq
      · obtain ⟨hpath, hminl⟩ := hm.2 hpe
        refine ⟨p, hpath, hminl, pathTo_mem_has hwf hf hpath, ?_, ?_⟩
        · rw [hrel, hres]
        · rw [hrel, hres]
          exact filterMap_mapGet_length g p (pathTo_mem_has hwf hf hpath)

/-- Witness for C9: the two-node graph `c7G` (root `r` with child `lf`),
tracing from the root to its child. -/
theorem C9_witness :
    (∀ e ∈ c7G.edges, ∀ c ∈ e.2, mapHas c7G.nodes c = true) ∧
    mapHas c7G.nodes ['r'] = true ∧ Reach c7G ['r'] ['l', 'f'] ∧
    ∃ ids, PathTo c7G ['r'] ['l', 'f'] ids ∧
      (∀ q, PathTo c7G ['r'] ['l', 'f'] q → ids.length ≤ q.length) ∧
      (∀ id ∈ ids, mapHas c7G.nodes id = true) ∧
      DKG.traceCausalChain c7G ['r'] ['l', 'f'] =
        ids.filterMap (fun id => mapGet c7G.nodes id) ∧
      (DKG.traceCausalChain c7G ['r'] ['l', 'f']).length = ids.length := by
  have hwf : ∀ e ∈ c7G.edges, ∀ c ∈ e.2, mapHas c7G.nodes c = true := by decide
  have hreach : Reach c7G ['r'] ['l', 'f'] :=
    Relation.ReflTransGen.single (by decide)
  exact ⟨hwf, by decide, hreach,
    (C9_traceCausalChain c7G ['r'] ['l', 'f'] hwf).2.2 (by decide) hreach⟩

end CKG
